import Mathlib

set_option maxRecDepth 8000

/-!
Shallow embedding of `src/music21/analysis/reduceChords.py` (class `ChordReducer`).

Quarter-length durations, offsets and beat strengths are modelled as exact
rationals; every quantity occurring in the claims is decimal, and the Python
`round(x, n)` guards are modelled exactly by rational rounding (half-to-even,
as Python's `round` does).  `beatStrength` and `isConsonant` are values
produced by external collaborators (the `meter` and `chord` modules, which are
outside the analysed source file); following the spec's data model they are
carried as fields of each event.  A Python runtime error (`TypeError` on
`tuple(int)`, `AttributeError`/`IndexError` on an empty stream) is modelled by
an `Option` result with value `none`.
-/

/-- Kind of a stream element: a plain `note.Note`, a `chord.Chord`, or a
`note.Rest`. -/
inductive EvKind
  | note
  | chord
  | rest
deriving DecidableEq

/-- A tie marking, as produced by `tie.Tie(...)`. -/
inductive TieT
  | start
  | stop
  | cont
deriving DecidableEq

/-- One member note of a chord (the `n` in `for n in c`): its pitch (as a
chromatic note number, pitch class obtained mod 12), its tie marking, and its
accidental, modelled as `Option (Option Bool)`: `none` when the pitch has no
accidental, otherwise `some displayStatus`. -/
structure CNote where
  pitch : ℕ
  tie : Option TieT := none
  accidental : Option (Option Bool) := none
deriving DecidableEq

/-- One timed element of a measure stream.  `tie` is the element-level tie of
the `GeneralNote` object itself; `notes` are the member notes (a singleton for
a plain note, empty for a rest).  `beatStrength` and `isConsonant` are the
externally supplied per-event values (spec section 3). -/
structure MEvent where
  offset : ℚ
  duration : ℚ
  kind : EvKind
  notes : List CNote
  beatStrength : ℚ := 0
  isConsonant : Bool := true
  tie : Option TieT := none
deriving DecidableEq

/-- An input measure: its ordered event stream and its nominal (bar) duration,
derived from the governing time signature. -/
structure Measure where
  events : List MEvent
  fullDuration : ℚ
deriving DecidableEq

/-- Insert a natural number into a sorted list. -/
def insSorted (a : ℕ) : List ℕ → List ℕ
  | [] => [a]
  | b :: l => if a ≤ b then a :: b :: l else b :: insSorted a l

/-- Sort a list of naturals ascending (structural insertion sort, so that it
evaluates by kernel reduction). -/
def sortNat : List ℕ → List ℕ
  | [] => []
  | a :: l => insSorted a (sortNat l)

/-- The pitch-class-set key `tuple(set([x.pitchClass for x in c.pitches]))`,
normalised to the sorted duplicate-free list of pitch classes.  (Python's
`tuple(set(...))` lists the set in hash order; the tuple is only ever used as
a dictionary key and compared for equality, so any canonical form of the set
is behaviourally equivalent.) -/
def pcSetKey (ps : List ℕ) : List ℕ :=
  sortNat ((ps.map (· % 12)).dedup)

/-- A weight-table key. -/
abbrev PCKey := List ℕ

/-- The per-event key computation shared by `computeMeasureChordWeights` and
the greedy pass of `reduceMeasureToNChords`:
`p = tuple(c.pitch.pitchClass) if c.isNote else tuple(set([x.pitchClass for x in c.pitches]))`.
For a plain note, `c.pitch.pitchClass` is an `int`, and `tuple(int)` raises
`TypeError`, modelled as `none`.  For a rest, `c.pitches` is the empty list
(modelled from the spec: pitch content is "empty for a rest"; `note.Rest` is
defined outside the analysed source), giving the empty key. -/
def pitchClassKey (e : MEvent) : Option PCKey :=
  match e.kind with
  | .note => none
  | _ => some (pcSetKey (e.notes.map (·.pitch)))

/-! ### The four weighting policies (spec section 4.1)

The Python code threads `positionInMeasure` and `numberOfElementsInMeasure`
through transient object fields; per the spec's design note they become the
explicit parameters `pos` and `n` here.  Python's test
`self.positionInMeasure == self.numberOfElementsInMeasure - 1` on ints equals
`pos + 1 = n` on naturals (for `n = 0` the Python right-hand side is `-1`,
matched by no position, and `pos + 1 = 0` likewise never holds). -/

/-- `quarterLengthOnly`. -/
def quarterLengthOnly (c : MEvent) : ℚ := c.duration

/-- `quarterLengthBeatStrength`. -/
def quarterLengthBeatStrength (c : MEvent) : ℚ := c.duration * c.beatStrength

/-- `quarterLengthBeatStrengthMeasurePosition`. -/
def quarterLengthBeatStrengthMeasurePosition (c : MEvent) (pos n : ℕ) : ℚ :=
  if pos + 1 = n then c.duration else quarterLengthBeatStrength c

/-- `consonanceScore = 1.0 if c.isConsonant() else 0.1`. -/
def consonanceFactor (c : MEvent) : ℚ := if c.isConsonant then 1 else 1 / 10

/-- `qlbsmpConsonance`. -/
def qlbsmpConsonance (c : MEvent) (pos n : ℕ) : ℚ :=
  if pos + 1 = n then c.duration * consonanceFactor c
  else quarterLengthBeatStrengthMeasurePosition c pos n * consonanceFactor c

/-- Selector for the four weighting methods (the Python code passes the bound
methods themselves). -/
inductive WeightAlg
  | quarterLengthOnly
  | quarterLengthBeatStrength
  | quarterLengthBeatStrengthMeasurePosition
  | qlbsmpConsonance
deriving DecidableEq

/-- Apply a selected weighting method to an event at position `pos` of `n`. -/
def evalWeightAlg : WeightAlg → MEvent → ℕ → ℕ → ℚ
  | .quarterLengthOnly, c, _, _ => quarterLengthOnly c
  | .quarterLengthBeatStrength, c, _, _ => quarterLengthBeatStrength c
  | .quarterLengthBeatStrengthMeasurePosition, c, pos, n =>
      quarterLengthBeatStrengthMeasurePosition c pos n
  | .qlbsmpConsonance, c, pos, n => qlbsmpConsonance c pos n

/-- The value `self.weightAlgorithm` assigned in `ChordReducer.__init__`. -/
def initWeightAlgorithm : WeightAlg := .qlbsmpConsonance

/-- The weight table `presentPCs`: an association list in first-encounter
(insertion) order, as dictionary insertion in the loop produces. -/
abbrev WeightTable := List (PCKey × ℚ)

/-- `presentPCs[p] += w`, inserting `p` with `0.0` first when absent. -/
def addWeight : WeightTable → PCKey → ℚ → WeightTable
  | [], k, w => [(k, w)]
  | kv :: rest, k, w =>
    if kv.1 = k then (kv.1, kv.2 + w) :: rest else kv :: addWeight rest k w

/-- Dictionary lookup `chordWeights[p]` (total, with default `0`; in the code
it is only applied to keys present in the table). -/
def lookupW : WeightTable → PCKey → ℚ
  | [], _ => 0
  | kv :: rest, k => if kv.1 = k then kv.2 else lookupW rest k

/-- The enumeration loop body of `computeMeasureChordWeights`. -/
def cmwGo (alg : WeightAlg) (n : ℕ) : ℕ → WeightTable → List MEvent → Option WeightTable
  | _, tbl, [] => some tbl
  | i, tbl, c :: rest =>
    match pitchClassKey c with
    | none => none
    | some p => cmwGo alg n (i + 1) (addWeight tbl p (evalWeightAlg alg c i n)) rest

/-- `ChordReducer.computeMeasureChordWeights(measureObj, weightAlgorithm)`.
When `weightAlgorithm is None` the code falls back to
`self.quarterLengthOnly` (source lines 168-169). -/
def computeMeasureChordWeights (mObj : List MEvent)
    (weightAlgorithm : Option WeightAlg) : Option WeightTable :=
  cmwGo (weightAlgorithm.getD .quarterLengthOnly) mObj.length 0 [] mObj

/-- Stable insertion of a table entry into a descending-by-weight list: the
inserted entry goes before the first entry of smaller-or-equal weight. -/
def insertByWeightDesc (kv : PCKey × ℚ) : WeightTable → WeightTable
  | [] => [kv]
  | kv' :: l => if kv'.2 ≤ kv.2 then kv :: kv' :: l else kv' :: insertByWeightDesc kv l

/-- Stable sort of the weight table in descending weight order, modelling
`sorted(chordWeights, key=chordWeights.get, reverse=True)` (Python's sort is
stable; the spec prescribes ties broken by first-encounter order). -/
def sortByWeightDesc : WeightTable → WeightTable
  | [] => []
  | kv :: l => insertByWeightDesc kv (sortByWeightDesc l)

/-! ### The greedy merge pass of `reduceMeasureToNChords` (source lines 325-353)

The Python loop `for c in mObj: ... mObj.remove(c)` iterates over a snapshot
of the stream's element list (music21 `Stream.elements` yields a fresh
sequence), so removal does not disturb the iteration; the loop is therefore a
fold over the initial event list, and removal means not appearing in the kept
output.  Kept events are mutated in place: the duration of the currently open
kept event is overwritten when it is closed out, ties and accidental display
statuses of its member notes are cleared when it is opened, and a first kept
event at a nonzero offset is moved to offset `0`. -/

/-- `n.tie = None; if n.pitch.accidental is not None: n.pitch.accidental.displayStatus = None`. -/
def resetCNote (n : CNote) : CNote :=
  { n with tie := none, accidental := n.accidental.map (fun _ => none) }

/-- Clear ties and accidental display statuses on all member notes of a kept
event. -/
def resetNotes (c : MEvent) : MEvent :=
  { c with notes := c.notes.map resetCNote }

/-- Loop state of the greedy pass: `currentGreedyChord`,
`currentGreedyChordPCs`, `currentGreedyChordNewLength`, plus the already
closed-out kept events in reverse order (they stay in `mObj` in the Python
code; discarded events have been removed). -/
structure GreedyState where
  current : Option MEvent
  currentPCs : Option PCKey
  newLength : ℚ
  keptRev : List MEvent
deriving DecidableEq

/-- Initial greedy state (`None`, `None`, `0.0`). -/
def greedyInit : GreedyState := ⟨none, none, 0, []⟩

/-- After the loop: `currentGreedyChord.quarterLength = currentGreedyChordNewLength`
and the kept events are returned in stream order. -/
def closeFinal (st : GreedyState) : List MEvent :=
  match st.current with
  | none => st.keptRev.reverse
  | some cur => ({ cur with duration := st.newLength } :: st.keptRev).reverse

/-- One iteration of the greedy loop on an event whose key is `p`.  The Python
guard is `p in trimmedMaxChords and p != currentGreedyChordPCs`;
`currentGreedyChordPCs` is `None` or a previously kept key, and a tuple never
equals `None`. -/
def greedyStep (kept : List PCKey) (st : GreedyState) (c : MEvent) (p : PCKey) :
    GreedyState :=
  if p ∈ kept ∧ st.currentPCs ≠ some p then
    match st.current with
    | none =>
      if c.offset ≠ 0 then
        ⟨some (resetNotes { c with offset := 0 }), some p,
          c.offset + c.duration, st.keptRev⟩
      else
        ⟨some (resetNotes c), some p, st.newLength + c.duration, st.keptRev⟩
    | some cur =>
      ⟨some (resetNotes c), some p, 0 + c.duration,
        { cur with duration := st.newLength } :: st.keptRev⟩
  else
    { st with newLength := st.newLength + c.duration }

/-- The greedy loop. -/
def greedyGo (kept : List PCKey) : GreedyState → List MEvent → Option (List MEvent)
  | st, [] => some (closeFinal st)
  | st, c :: rest =>
    match pitchClassKey c with
    | none => none
    | some p => greedyGo kept (greedyStep kept st c p) rest

/-! ### Rhythmic smoothing (source lines 356-364, "even chord lengths") -/

/-- Python `int(x)`: truncation toward zero. -/
def truncQ (q : ℚ) : ℤ := if 0 ≤ q then ⌊q⌋ else ⌈q⌉

/-- Python `round` to an integer: half-to-even. -/
def roundHalfEvenZ (q : ℚ) : ℤ :=
  if q - ⌊q⌋ < 1 / 2 then ⌊q⌋
  else if 1 / 2 < q - ⌊q⌋ then ⌊q⌋ + 1
  else if 2 ∣ ⌊q⌋ then ⌊q⌋ else ⌊q⌋ + 1

/-- Python `round(q, digits)`. -/
def pyRound (q : ℚ) (digits : ℕ) : ℚ :=
  (roundHalfEvenZ (q * 10 ^ digits) : ℚ) / 10 ^ digits

/-- The literal syncopation marker list `[0.250, 0.125, 0.333, 0.063, 0.062]`. -/
def syncopMarkers : List ℚ := [250 / 1000, 125 / 1000, 333 / 1000, 63 / 1000, 62 / 1000]

/-- One iteration of the smoothing loop at index `i ≥ 1`: if the fractional
offset of `mObj[i]`, rounded to 3 decimals, is a syncopation marker, shift the
event back to its beat boundary, shrinking `mObj[i-1]` and growing `mObj[i]`
by the fractional amount. -/
def smoothAt (l : List MEvent) (i : ℕ) : List MEvent :=
  match l.get? i, l.get? (i - 1) with
  | some c, some lastC =>
    let intPart : ℚ := (truncQ c.offset : ℤ)
    let syncop := c.offset - intPart
    if pyRound syncop 3 ∈ syncopMarkers then
      (l.set (i - 1) { lastC with duration := lastC.duration - syncop }).set i
        { c with offset := intPart, duration := c.duration + syncop }
    else l
  | _, _ => l

/-- `for i in range(1, len(mObj))`, written with explicit fuel so that it is
structurally recursive; `smoothAt` preserves the list length, so fuel
`l.length` is enough for the whole range. -/
def evenLoopFuel : ℕ → List MEvent → ℕ → List MEvent
  | 0, l, _ => l
  | fuel + 1, l, i => if i < l.length then evenLoopFuel fuel (smoothAt l i) (i + 1) else l

/-- The whole smoothing pass. -/
def evenChordLengths (l : List MEvent) : List MEvent :=
  evenLoopFuel l.length l 1

/-! ### `reduceMeasureToNChords` (source lines 263-366) -/

/-- Whether an element is a `note.Rest`. -/
def isRestB (e : MEvent) : Bool :=
  match e.kind with
  | .rest => true
  | _ => false

/-- `measureObj.flat.notes` / `measureObj.notes`: the note-and-chord elements
of the measure, rests excluded, in temporal order. -/
def notesOf (m : Measure) : List MEvent :=
  m.events.filter (fun e => !isRestB e)

/-- The fresh `note.Rest()` inserted for an empty candidate list; its
quarter-length is set to `mObj.duration.quarterLength`.  Modelled from the
spec: the music21 stream duration is defined outside the analysed source, and
the spec fixes this case as "a single Rest spanning the full measure
duration", so the rest receives the measure's nominal duration. -/
def restEvent (ql : ℚ) : MEvent :=
  { offset := 0, duration := ql, kind := .rest, notes := [],
    beatStrength := 0, isConsonant := true, tie := none }

/-- `if numChords > len(chordWeights): numChords = len(chordWeights)`. -/
def clampNumChords (numChords tblLen : ℕ) : ℕ :=
  if tblLen < numChords then tblLen else numChords

/-- `maxNChords = sortedChords[:numChords]` with the clamped count. -/
def maxNChordsOf (tbl : WeightTable) (numChords : ℕ) : List PCKey :=
  ((sortByWeightDesc tbl).map (·.1)).take (clampNumChords numChords tbl.length)

/-- The trim loop (source lines 317-323): walk `maxNChords` in rank order,
keeping each key whose weight is `>= maxChordWeight * trimBelow`, stopping at
the first failure, where `maxChordWeight = chordWeights[maxNChords[0]]`. -/
def trimmedOf (tbl : WeightTable) (maxN : List PCKey) (trimBelow : ℚ) : List PCKey :=
  maxN.takeWhile (fun p => decide (lookupW tbl maxN.headI * trimBelow ≤ lookupW tbl p))

/-- `ChordReducer.reduceMeasureToNChords(measureObj, numChords, weightAlgorithm, trimBelow)`.
The result is the final state of the mutated stream `mObj` (the Python
function returns the very stream it has modified); `none` models a raised
`TypeError` (a plain Note among the events, claim C9). -/
def reduceMeasureToNChords (measureObj : Measure) (numChords : ℕ)
    (weightAlgorithm : Option WeightAlg) (trimBelow : ℚ) : Option (List MEvent) :=
  match computeMeasureChordWeights (notesOf measureObj) weightAlgorithm with
  | none => none
  | some chordWeights =>
    if (maxNChordsOf chordWeights numChords).length = 0 then
      some [restEvent measureObj.fullDuration]
    else
      (greedyGo (trimmedOf chordWeights (maxNChordsOf chordWeights numChords) trimBelow)
        greedyInit (notesOf measureObj)).map evenChordLengths

/-! ### `ChordReducer._buildOutputMeasure` (source lines 61-119)

The embedding keeps the parts of the surrounding music21 structure the method
actually reads: the reduction's event list, the governing time signature's bar
duration (`tsContext.barDuration.quarterLength`, as `Option ℚ`), the source
measure's time signature and the threaded `lastTimeSignature` (as opaque
numerator/denominator pairs), and the threaded `lastPitchedObject`.  The
closed-position voicing transform is an external collaborator and is passed in
as a function, applied only when `closedPosition` is enabled.  The method's
side effect on the caller's previous event (setting `lastPitchedObject.tie`)
is returned explicitly as `updatedPrev`.  An empty reduction makes
`outputMeasure[-1]` (and possibly `cLast.quarterLength`) raise, modelled as
`none`. -/

/-- A time signature, identified up to the equality the method tests. -/
abbrev TimeSig := ℕ × ℕ

/-- Result of `_buildOutputMeasure`: the caller's previous pitched object
after the tie-marking side effect, the new `lastPitchedObject`, the new
`lastTimeSignature`, the time signature attached to the output measure (if
any), and the output measure's events in temporal order. -/
structure BuildResult where
  updatedPrev : Option MEvent
  newLastPitched : MEvent
  newLastTimeSignature : Option TimeSig
  outputTimeSig : Option TimeSig
  outputEvents : List MEvent
deriving DecidableEq

/-- State of the copy loop: the copies inserted so far (reverse order; `cLast`
is the head) and `cLastEnd`. -/
structure BuildState where
  accRev : List MEvent
  cLastEnd : ℚ
deriving DecidableEq

/-- One iteration of the copy loop: deep-copy the element (value semantics:
the copy is the value itself), optionally apply the voicing transform to a
chord, extend the previous copy over any gap (`round(newOffset - cLastEnd, 6)
!= 0.0`), and insert the copy at its reduction offset. -/
def buildStep (closedPosition : Bool) (transform : MEvent → MEvent)
    (st : BuildState) (cEl : MEvent) : BuildState :=
  let cElCopy := if cEl.kind = .chord ∧ closedPosition = true then transform cEl else cEl
  let newOffset := cEl.offset
  let accRev' :=
    match st.accRev with
    | [] => []
    | cLast :: restRev =>
      if pyRound (newOffset - st.cLastEnd) 6 ≠ 0 then
        { cLast with duration := cLast.duration + (newOffset - st.cLastEnd) } :: restRev
      else cLast :: restRev
  ⟨{ cElCopy with offset := newOffset } :: accRev', newOffset + cElCopy.duration⟩

/-- The note-branch pitch `lastPitchedObject.pitch` of a plain note. -/
def firstPitch (e : MEvent) : Option ℕ := (e.notes.map (·.pitch)).head?

/-- The chord-branch comparison: equal length and pairwise-equal pitches in
order, which for lists is exactly equality of the pitch lists. -/
def pitchList (e : MEvent) : List ℕ := e.notes.map (·.pitch)

/-- The tie-continuation decision (source lines 101-113) applied to the
previous pitched object and the output measure's first element. -/
def tieDecision (lastPitchedObject : Option MEvent) (firstOut : Option MEvent) :
    Option MEvent :=
  match lastPitchedObject, firstOut with
  | some lp, some firstPitched =>
    if lp.kind = .note ∧ firstPitched.kind = .note then
      if firstPitch lp = firstPitch firstPitched then
        some { lp with tie := some .start }
      else some lp
    else if lp.kind = .chord ∧ firstPitched.kind = .chord then
      if lp.notes.length = firstPitched.notes.length ∧
          pitchList lp = pitchList firstPitched then
        some { lp with tie := some .start }
      else some lp
    else some lp
  | none, _ => none
  | some lp, none => some lp

/-- `ChordReducer._buildOutputMeasure`. -/
def buildOutputMeasure (closedPosition : Bool) (transform : MEvent → MEvent)
    (reduction : List MEvent) (barQL : Option ℚ)
    (sourceTs lastTimeSignature : Option TimeSig)
    (lastPitchedObject : Option MEvent) : Option BuildResult :=
  match reduction.foldl (buildStep closedPosition transform) ⟨[], 0⟩ with
  | ⟨[], _⟩ => none
  | ⟨cLast :: restRev, cLastEnd⟩ =>
    let lastOut :=
      match barQL with
      | some b =>
        if pyRound (b - cLastEnd) 6 ≠ 0 then
          { cLast with duration := cLast.duration + (b - cLastEnd) }
        else cLast
      | none => cLast
    let outputEvents := (lastOut :: restRev).reverse
    let tsPair :=
      if sourceTs ≠ lastTimeSignature then (sourceTs, sourceTs)
      else (none, lastTimeSignature)
    some ⟨tieDecision lastPitchedObject outputEvents.head?, lastOut, tsPair.2, tsPair.1,
      outputEvents⟩

/-! ### Concrete inputs -/

/-- A member note without tie or accidental. -/
def plainN (p : ℕ) : CNote := ⟨p, none, none⟩

/-- The measure built by `testMeasureStream1`: chord {C4,E4,G4,C5} for 2.0
quarter lengths, then {C4,E4,F4,B4} for 1.0, then {C4,E4,G4,C5} for 1.0, in
4/4.  The externally supplied values: music21 beat strengths in 4/4 at offsets
0, 2, 3 are 1, 1/2, 1/4; the C-major chord is consonant, {C4,E4,F4,B4} is
not. -/
def testMeasureStream1 : Measure :=
  { events :=
      [ { offset := 0, duration := 2, kind := .chord,
          notes := [plainN 60, plainN 64, plainN 67, plainN 72],
          beatStrength := 1, isConsonant := true },
        { offset := 2, duration := 1, kind := .chord,
          notes := [plainN 60, plainN 64, plainN 65, plainN 71],
          beatStrength := 1 / 2, isConsonant := false },
        { offset := 3, duration := 1, kind := .chord,
          notes := [plainN 60, plainN 64, plainN 67, plainN 72],
          beatStrength := 1 / 4, isConsonant := true } ],
    fullDuration := 4 }

/-! ### Well-formedness of a measure, and derived observations -/

/-- Total duration of an event list. -/
def sumDur (l : List MEvent) : ℚ := (l.map (·.duration)).sum

/-- The events are contiguous starting at time `q`: each event's offset is the
end of the previous one. -/
def contiguousFrom : ℚ → List MEvent → Prop
  | _, [] => True
  | q, e :: rest => e.offset = q ∧ contiguousFrom (q + e.duration) rest

/-- `contiguousFrom` is decidable (so that witnesses can be checked on
concrete measures). -/
def contiguousFromDec : (q : ℚ) → (l : List MEvent) → Decidable (contiguousFrom q l)
  | _, [] => .isTrue trivial
  | q, e :: rest =>
    @instDecidableAnd _ _ (inferInstance) (contiguousFromDec (q + e.duration) rest)

instance (q : ℚ) (l : List MEvent) : Decidable (contiguousFrom q l) :=
  contiguousFromDec q l

/-- A well-formed measure in the sense of the claims: positive durations,
contiguous events with no overlaps partitioning `[0, fullDuration]`, and
beat strengths that are at least `0` (the spec's data model has
`beatStrength ∈ [0,1]`). -/
def wfMeasure (m : Measure) : Prop :=
  contiguousFrom 0 m.events ∧ m.fullDuration = sumDur m.events ∧
    ∀ e ∈ m.events, 0 < e.duration ∧ 0 ≤ e.beatStrength

/-- All events carry pitch content (no rests). -/
def pitchedOnly (m : Measure) : Prop := ∀ e ∈ m.events, e.kind ≠ .rest

/-- Number of distinct pitch-class-set keys among a list of events. -/
def distinctKeyCount (l : List MEvent) : ℕ :=
  ((l.filterMap pitchClassKey).dedup).length

/-! ### Concrete measures used as counterexamples and witnesses -/

/-- A well-formed measure (positive durations, contiguous, no overlaps) that
contains a rest between two statements of the same chord. -/
def restGapMeasure : Measure :=
  { events :=
      [ { offset := 0, duration := 1, kind := .chord, notes := [plainN 60],
          beatStrength := 1, isConsonant := true },
        { offset := 1, duration := 1, kind := .rest, notes := [],
          beatStrength := 1 / 2, isConsonant := true },
        { offset := 2, duration := 1, kind := .chord, notes := [plainN 60],
          beatStrength := 1 / 2, isConsonant := true } ],
    fullDuration := 3 }

/-- A measure alternating two sonorities: C, E, C, E. -/
def alternatingMeasure : Measure :=
  { events :=
      [ { offset := 0, duration := 3 / 2, kind := .chord, notes := [plainN 60],
          beatStrength := 1, isConsonant := true },
        { offset := 3 / 2, duration := 1, kind := .chord, notes := [plainN 64],
          beatStrength := 1 / 2, isConsonant := true },
        { offset := 5 / 2, duration := 1, kind := .chord, notes := [plainN 60],
          beatStrength := 1 / 2, isConsonant := true },
        { offset := 7 / 2, duration := 1 / 2, kind := .chord, notes := [plainN 64],
          beatStrength := 1 / 4, isConsonant := true } ],
    fullDuration := 4 }

/-- A measure containing only rests. -/
def allRestMeasure : Measure :=
  { events :=
      [ { offset := 0, duration := 2, kind := .rest, notes := [], beatStrength := 1,
          isConsonant := true },
        { offset := 2, duration := 2, kind := .rest, notes := [], beatStrength := 1 / 2,
          isConsonant := true } ],
    fullDuration := 4 }

/-- A measure containing a plain Note followed by a chord. -/
def noteMeasure : Measure :=
  { events :=
      [ { offset := 0, duration := 1, kind := .note, notes := [plainN 60],
          beatStrength := 1, isConsonant := true },
        { offset := 1, duration := 1, kind := .chord, notes := [plainN 60, plainN 64],
          beatStrength := 1 / 2, isConsonant := true } ],
    fullDuration := 2 }

/-- A measure whose first event is discarded by the reduction and whose second
event (the survivor) carries a tie and a displayed accidental. -/
def mutationMeasure : Measure :=
  { events :=
      [ { offset := 0, duration := 1, kind := .chord, notes := [plainN 64],
          beatStrength := 1, isConsonant := true },
        { offset := 1, duration := 2, kind := .chord,
          notes := [⟨60, some .start, some (some true)⟩],
          beatStrength := 1 / 2, isConsonant := true, tie := none } ],
    fullDuration := 3 }

/-- A chord `C4 E4` (in that order), used as the previous measure's last
pitched object. -/
def tiePrevChord : MEvent :=
  { offset := 0, duration := 4, kind := .chord, notes := [plainN 60, plainN 64],
    beatStrength := 1, isConsonant := true, tie := none }

/-- The same chord voiced in the reverse order `E4 C4`: the same pitch set. -/
def tiePrevReordered : MEvent :=
  { offset := 0, duration := 4, kind := .chord, notes := [plainN 64, plainN 60],
    beatStrength := 1, isConsonant := true, tie := none }

/-- The single chord `C4 E4` of a one-chord reduction starting the current
measure. -/
def tieRed0 : MEvent :=
  { offset := 0, duration := 4, kind := .chord, notes := [plainN 60, plainN 64],
    beatStrength := 1, isConsonant := true, tie := none }

/-- A one-chord reduction `C4 E4` starting the current measure. -/
def tieReduction : List MEvent := [tieRed0]

/-- The build result on `tieReduction` with previous object `tiePrevChord`. -/
def buildResultW : BuildResult :=
  ⟨some { tiePrevChord with tie := some TieT.start }, tieRed0, none, none, [tieRed0]⟩

/-- The number of kept events recorded in a greedy state. -/
def stLen (st : GreedyState) : ℕ :=
  st.keptRev.length + (if st.current.isSome then 1 else 0)

/-- The open key, when present, is a kept key. -/
def curOK (kept : List PCKey) (st : GreedyState) : Prop :=
  st.currentPCs = none ∨ ∃ k ∈ kept, st.currentPCs = some k

/-- Structural invariant relating the open event and its recorded key. -/
def curInv (st : GreedyState) : Prop :=
  (st.current = none ∧ st.currentPCs = none) ∨
    (∃ cur k, st.current = some cur ∧ st.currentPCs = some k ∧ pitchClassKey cur = some k)

/-- The keys recorded in a greedy state. -/
def optKeySet : Option PCKey → Finset PCKey
  | none => ∅
  | some k => {k}

def stKeys (st : GreedyState) : Finset PCKey :=
  (st.keptRev.filterMap pitchClassKey).toFinset ∪ optKeySet st.currentPCs

/-! ### Helper lemmas -/

theorem optNoneEqSomeFalse (a : PCKey) : (none = some a) = False := by simp

theorem optSomeEqNoneFalse (a : PCKey) : (some a = none) = False := by simp

/-- `pitchClassKey` is `none` exactly on plain notes. -/
theorem pitchClassKey_eq_none_iff (e : MEvent) : pitchClassKey e = none ↔ e.kind = .note := by
  unfold pitchClassKey
  cases e.kind <;> simp

theorem cmwGo_hasNote_none (alg : WeightAlg) (n : ℕ) :
    ∀ (evs : List MEvent) (i : ℕ) (tbl : WeightTable),
      (∃ e ∈ evs, e.kind = .note) → cmwGo alg n i tbl evs = none := by
  intro evs
  induction evs with
  | nil => intro i tbl h; simp at h
  | cons c rest ih =>
    intro i tbl h
    rcases h with ⟨e, he, hkind⟩
    rcases List.mem_cons.mp he with rfl | hmem
    · simp [cmwGo, pitchClassKey, hkind]
    · cases hk : pitchClassKey c with
      | none => simp [cmwGo, hk]
      | some p => simpa [cmwGo, hk] using ih _ _ ⟨e, hmem, hkind⟩

theorem greedyGo_hasNote_none (kept : List PCKey) :
    ∀ (evs : List MEvent) (st : GreedyState),
      (∃ e ∈ evs, e.kind = .note) → greedyGo kept st evs = none := by
  intro evs
  induction evs with
  | nil => intro st h; simp at h
  | cons c rest ih =>
    intro st h
    rcases h with ⟨e, he, hkind⟩
    rcases List.mem_cons.mp he with rfl | hmem
    · simp [greedyGo, pitchClassKey, hkind]
    · cases hk : pitchClassKey c with
      | none => simp [greedyGo, hk]
      | some p =>
        rw [greedyGo, hk]
        exact ih _ ⟨e, hmem, hkind⟩

/-- a note or chord survives the rest filter. -/
theorem mem_notesOf_of_note {m : Measure} {e : MEvent} (he : e ∈ m.events)
    (hkind : e.kind = .note) : e ∈ notesOf m := by
  refine List.mem_filter.mpr ⟨he, ?_⟩
  simp [isRestB, hkind]

/-- An all-rest measure has an empty note stream. -/
theorem notesOf_eq_nil_of_allRest {m : Measure} (h : ∀ e ∈ m.events, e.kind = .rest) :
    notesOf m = [] := by
  refine List.filter_eq_nil_iff.mpr ?_
  intro e he
  simp [isRestB, h e he]

/-! ### Claim C6: the consonance-weighted scoring function -/

/-- C6 (confirmed): `qlbsmpConsonance` multiplies the event's duration by the
consonance factor (`1.0` if consonant, `0.1` otherwise) directly when the
event is last in the measure (`pos == n-1`, bypassing beat strength), and by
the beat strength and the consonance factor otherwise. -/
theorem qlbsmpConsonance_spec (c : MEvent) (pos n : ℕ) :
    qlbsmpConsonance c pos n =
      if pos + 1 = n then c.duration * (if c.isConsonant then 1 else 1 / 10)
      else c.duration * c.beatStrength * (if c.isConsonant then 1 else 1 / 10) := by
  unfold qlbsmpConsonance consonanceFactor quarterLengthBeatStrengthMeasurePosition quarterLengthBeatStrength
  by_cases h : pos + 1 = n <;> simp [h]

/-! ### Claim C7: the default weighting policy -/

/-- C7 (counterexample): invoking `reduceMeasureToNChords` without an explicit
weighting policy does not apply the consonance-weighted policy: on the doctest
measure the result differs from the result under `qlbsmpConsonance` (three
kept chords against one). -/
theorem defaultPolicy_counterexample :
    reduceMeasureToNChords testMeasureStream1 3 none (3 / 10) ≠
      reduceMeasureToNChords testMeasureStream1 3 (some .qlbsmpConsonance) (3 / 10) := by
  norm_num [reduceMeasureToNChords, computeMeasureChordWeights, notesOf, testMeasureStream1,
    cmwGo, pitchClassKey, pcSetKey, sortNat, insSorted, List.dedup, List.pwFilter, addWeight,
    evalWeightAlg, qlbsmpConsonance, consonanceFactor, quarterLengthBeatStrengthMeasurePosition,
    quarterLengthBeatStrength, quarterLengthOnly, plainN, List.filter, isRestB,
    maxNChordsOf, clampNumChords, sortByWeightDesc, insertByWeightDesc, trimmedOf, lookupW,
    List.takeWhile, greedyGo, greedyStep, greedyInit, closeFinal, resetNotes, resetCNote,
    evenChordLengths, evenLoopFuel, smoothAt, pyRound, roundHalfEvenZ, truncQ,
    syncopMarkers, List.headI, List.set, optNoneEqSomeFalse, optSomeEqNoneFalse,
    Option.some.injEq, Option.map]

/-- C7 (amended): when no weighting policy is passed, the fallback actually
applied by `computeMeasureChordWeights` (and hence by
`reduceMeasureToNChords`) is `quarterLengthOnly` (source lines 168-169); the
`weightAlgorithm` field that `__init__` sets to `qlbsmpConsonance` is never
consulted by these methods. -/
theorem defaultPolicy_is_quarterLengthOnly (mObj : List MEvent) (m : Measure) (nc : ℕ)
    (t : ℚ) :
    computeMeasureChordWeights mObj none =
        computeMeasureChordWeights mObj (some .quarterLengthOnly) ∧
      reduceMeasureToNChords m nc none t =
        reduceMeasureToNChords m nc (some .quarterLengthOnly) t ∧
      initWeightAlgorithm = .qlbsmpConsonance :=
  ⟨rfl, rfl, rfl⟩

/-! ### Claim C9: plain notes break the pitch-class-key computation -/

/-- C9 (confirmed): on any measure containing a plain Note, the weight
computation, the greedy pass, and hence the whole reduction raise a
`TypeError` (modelled as `none`), because `tuple()` is applied to the note's
integer pitch class; and the key computation is total exactly on the non-note
(chord and rest) events. -/
theorem noteEvent_typeError (m : Measure) (numChords : ℕ) (alg : Option WeightAlg)
    (trim : ℚ) (h : ∃ e ∈ m.events, e.kind = .note) :
    computeMeasureChordWeights (notesOf m) alg = none ∧
      (∀ (kept : List PCKey) (st : GreedyState), greedyGo kept st (notesOf m) = none) ∧
      reduceMeasureToNChords m numChords alg trim = none ∧
      (∀ e : MEvent, (pitchClassKey e).isSome ↔ e.kind ≠ .note) := by
  obtain ⟨e, he, hkind⟩ := h
  have hmem : e ∈ notesOf m := mem_notesOf_of_note he hkind
  have hcmw : computeMeasureChordWeights (notesOf m) alg = none :=
    cmwGo_hasNote_none _ _ _ _ _ ⟨e, hmem, hkind⟩
  refine ⟨hcmw, fun kept st => greedyGo_hasNote_none _ _ _ ⟨e, hmem, hkind⟩, ?_, ?_⟩
  · unfold reduceMeasureToNChords
    simp [hcmw]
  · intro e'
    rw [Option.isSome_iff_ne_none]
    exact not_congr (pitchClassKey_eq_none_iff e')

theorem noteEvent_typeError_witness :
    reduceMeasureToNChords noteMeasure 1 none (1 / 4) = none :=
  (noteEvent_typeError noteMeasure 1 none (1 / 4)
    ⟨{ offset := 0, duration := 1, kind := .note, notes := [plainN 60],
       beatStrength := 1, isConsonant := true, tie := none },
     by simp [noteMeasure], rfl⟩).2.2.1

/-! ### Claim C4: all-rest measures -/

/-- C4 (confirmed): a measure whose events are all rests reduces, for any
`maxChords ≥ 1`, any policy and any trim, to exactly one Rest whose duration
is the full measure duration.  (The rest's quarter length
`mObj.duration.quarterLength` is modelled from the spec as the measure's
nominal duration; see `restEvent`.) -/
theorem allRest_singleRest (m : Measure) (numChords : ℕ) (alg : Option WeightAlg)
    (trim : ℚ) (hrest : ∀ e ∈ m.events, e.kind = .rest) (_hnc : 1 ≤ numChords) :
    reduceMeasureToNChords m numChords alg trim = some [restEvent m.fullDuration] := by
  have hn : notesOf m = [] := notesOf_eq_nil_of_allRest hrest
  unfold reduceMeasureToNChords
  simp [hn, computeMeasureChordWeights, cmwGo, maxNChordsOf, sortByWeightDesc, clampNumChords]

theorem allRest_singleRest_witness :
    reduceMeasureToNChords allRestMeasure 2 (some .qlbsmpConsonance) (3 / 10) =
      some [restEvent 4] :=
  allRest_singleRest allRestMeasure 2 (some .qlbsmpConsonance) (3 / 10)
    (by
      intro e he
      simp [allRestMeasure] at he
      rcases he with rfl | rfl <;> rfl)
    (by norm_num)

/-! ### Claim C3: the worked scenario -/

/-- C3 (counterexample): on the doctest measure under the consonance-weighted
policy, the aggregate score of the pitch-class set {0,4,5,11} is `1/20`
(= 0.05; the doctest's `%2.1f` format displays it as `0.1`), not `0.1` as the
claim states. -/
theorem scenario_weight_counterexample :
    computeMeasureChordWeights (notesOf testMeasureStream1) (some .qlbsmpConsonance) =
        some [([0, 4, 7], 3), ([0, 4, 5, 11], 1 / 20)] ∧
      ((1 : ℚ) / 20) ≠ 1 / 10 := by
  constructor
  · norm_num [computeMeasureChordWeights, notesOf, testMeasureStream1, cmwGo, pitchClassKey,
      pcSetKey, sortNat, insSorted, List.dedup, List.pwFilter, addWeight, evalWeightAlg,
      qlbsmpConsonance, consonanceFactor, quarterLengthBeatStrengthMeasurePosition, quarterLengthBeatStrength,
      plainN, List.filter, isRestB]
  · norm_num

/-- C3 (amended): the weight table maps {0,4,7} to `3.0` and {0,4,5,11} to
`1/20 = 0.05`; the second group is trimmed because `1/20 < 3.0 * 0.3`; and the
reduction returns the single chord {C4,E4,G4,C5} with duration 4.0 at offset
0. -/
theorem scenario_amended :
    computeMeasureChordWeights (notesOf testMeasureStream1) (some .qlbsmpConsonance) =
        some [([0, 4, 7], 3), ([0, 4, 5, 11], 1 / 20)] ∧
      ((1 : ℚ) / 20) < 3 * (3 / 10) ∧
      reduceMeasureToNChords testMeasureStream1 3 (some .qlbsmpConsonance) (3 / 10) =
        some [{ offset := 0, duration := 4, kind := .chord,
                notes := [plainN 60, plainN 64, plainN 67, plainN 72],
                beatStrength := 1, isConsonant := true, tie := none }] := by
  refine ⟨?_, by norm_num, ?_⟩
  · norm_num [computeMeasureChordWeights, notesOf, testMeasureStream1, cmwGo, pitchClassKey,
      pcSetKey, sortNat, insSorted, List.dedup, List.pwFilter, addWeight, evalWeightAlg,
      qlbsmpConsonance, consonanceFactor, quarterLengthBeatStrengthMeasurePosition, quarterLengthBeatStrength,
      plainN, List.filter, isRestB]
  · norm_num [reduceMeasureToNChords, computeMeasureChordWeights, notesOf, testMeasureStream1,
      cmwGo, pitchClassKey, pcSetKey, sortNat, insSorted, List.dedup, List.pwFilter, addWeight,
      evalWeightAlg, qlbsmpConsonance, consonanceFactor, quarterLengthBeatStrengthMeasurePosition,
      quarterLengthBeatStrength, plainN, List.filter, isRestB,
      maxNChordsOf, clampNumChords, sortByWeightDesc, insertByWeightDesc, trimmedOf, lookupW,
      List.takeWhile, greedyGo, greedyStep, greedyInit, closeFinal, resetNotes, resetCNote,
      evenChordLengths, evenLoopFuel, smoothAt, pyRound, roundHalfEvenZ, truncQ,
      syncopMarkers, List.headI, List.set, optNoneEqSomeFalse, optSomeEqNoneFalse,
      Option.some.injEq, Option.map]

/-! ### Claim C10: in-place mutation of the input stream -/

/-- C10 (confirmed): the reduction's result is the final state of the input
note stream itself (the Python method removes and rewrites elements of `mObj`
and returns that same stream).  On `mutationMeasure` the discarded first event
is removed, and the surviving event has its offset rewritten from 1 to 0, its
duration from 2 to 3, its member note's tie cleared and its accidental's
display status reset — so the input measure's stream is not preserved. -/
theorem reduceMeasure_mutates_input :
    reduceMeasureToNChords mutationMeasure 1 none (1 / 4) =
        some [{ offset := 0, duration := 3, kind := .chord,
                notes := [⟨60, none, some none⟩], beatStrength := 1 / 2,
                isConsonant := true, tie := none }] ∧
      notesOf mutationMeasure =
        [ { offset := 0, duration := 1, kind := .chord, notes := [plainN 64],
            beatStrength := 1, isConsonant := true, tie := none },
          { offset := 1, duration := 2, kind := .chord,
            notes := [⟨60, some .start, some (some true)⟩],
            beatStrength := 1 / 2, isConsonant := true, tie := none } ] ∧
      reduceMeasureToNChords mutationMeasure 1 none (1 / 4) ≠
        some (notesOf mutationMeasure) := by
  refine ⟨?_, by norm_num [notesOf, mutationMeasure, List.filter, isRestB, plainN], ?_⟩
  · norm_num [reduceMeasureToNChords, computeMeasureChordWeights, notesOf, mutationMeasure,
      cmwGo, pitchClassKey, pcSetKey, sortNat, insSorted, List.dedup, List.pwFilter, addWeight,
      evalWeightAlg, quarterLengthOnly, plainN, List.filter, isRestB,
      maxNChordsOf, clampNumChords, sortByWeightDesc, insertByWeightDesc, trimmedOf, lookupW,
      List.takeWhile, greedyGo, greedyStep, greedyInit, closeFinal, resetNotes, resetCNote,
      evenChordLengths, evenLoopFuel, smoothAt, pyRound, roundHalfEvenZ, truncQ,
      syncopMarkers, List.headI, List.set, optNoneEqSomeFalse, optSomeEqNoneFalse,
      Option.some.injEq, Option.map]
  · norm_num [reduceMeasureToNChords, computeMeasureChordWeights, notesOf, mutationMeasure,
      cmwGo, pitchClassKey, pcSetKey, sortNat, insSorted, List.dedup, List.pwFilter, addWeight,
      evalWeightAlg, quarterLengthOnly, plainN, List.filter, isRestB,
      maxNChordsOf, clampNumChords, sortByWeightDesc, insertByWeightDesc, trimmedOf, lookupW,
      List.takeWhile, greedyGo, greedyStep, greedyInit, closeFinal, resetNotes, resetCNote,
      evenChordLengths, evenLoopFuel, smoothAt, pyRound, roundHalfEvenZ, truncQ,
      syncopMarkers, List.headI, List.set, optNoneEqSomeFalse, optSomeEqNoneFalse,
      Option.some.injEq, Option.map]

/-! ### Claim C8: tie continuity at measure boundaries -/

/-- C8 (counterexample): identical pitch *sets* are not enough.  With the
previous measure's last chord voiced `E4 C4` and the current measure's first
chord voiced `C4 E4` — the same pitch set, the same pitch count — the
pairwise in-order comparison fails and no tie start is set. -/
theorem tieContinuity_counterexample :
    buildOutputMeasure false id tieReduction none none none (some tiePrevReordered) =
        some ⟨some tiePrevReordered, tieRed0, none, none, [tieRed0]⟩ ∧
      (pitchList tiePrevReordered).toFinset = (pitchList tieRed0).toFinset ∧
      (pitchList tiePrevReordered).length = (pitchList tieRed0).length ∧
      tiePrevReordered.tie = none := by
  refine ⟨?_, by decide, rfl, rfl⟩
  norm_num [buildOutputMeasure, buildStep, tieReduction, tieRed0, tiePrevReordered,
    tieDecision, pitchList, firstPitch, plainN, pyRound, roundHalfEvenZ, List.foldl]

/-- C8 (amended): during assembly of an output measure, if the previous output
measure's last pitched event and the current measure's first event are both
chords with equal pitch count and pairwise-equal pitches *in the same order*
(the comparison the code performs; set equality is not sufficient), the
previous event is marked as a tie start; the marking is returned as
`updatedPrev`. -/
theorem tieContinuity_inOrder (reduction : List MEvent) (barQL : Option ℚ)
    (sTs lTs : Option TimeSig) (lp : MEvent) (res : BuildResult) (f0 : MEvent)
    (hres : buildOutputMeasure false id reduction barQL sTs lTs (some lp) = some res)
    (hf0 : res.outputEvents.head? = some f0)
    (hlp : lp.kind = .chord) (hf : f0.kind = .chord)
    (hlen : lp.notes.length = f0.notes.length)
    (hpl : pitchList lp = pitchList f0) :
    res.updatedPrev = some { lp with tie := some TieT.start } := by
  unfold buildOutputMeasure at hres
  rcases hacc : reduction.foldl (buildStep false id) ⟨[], 0⟩ with ⟨accRev, cEnd⟩
  rw [hacc] at hres
  rcases accRev with _ | ⟨cLast, restRev⟩
  · simp at hres
  · rw [Option.some.injEq] at hres
    subst hres
    dsimp only at hf0 ⊢
    rw [hf0]
    unfold tieDecision
    simp [hlp, hf, hlen, hpl]

theorem tieContinuity_inOrder_witness :
    buildResultW.updatedPrev = some { tiePrevChord with tie := some TieT.start } :=
  tieContinuity_inOrder tieReduction none none none tiePrevChord buildResultW tieRed0
    (by norm_num [buildOutputMeasure, buildStep, tieReduction, tieRed0, tiePrevChord,
      buildResultW, tieDecision, pitchList, firstPitch, plainN, pyRound, roundHalfEvenZ,
      List.foldl])
    rfl rfl rfl rfl rfl

/-! ### Sum and list helper lemmas -/

theorem sumDur_nil : sumDur [] = 0 := rfl

theorem sumDur_cons (e : MEvent) (l : List MEvent) :
    sumDur (e :: l) = e.duration + sumDur l := by
  simp [sumDur]

theorem sumDur_reverse (l : List MEvent) : sumDur l.reverse = sumDur l := by
  simp [sumDur, List.sum_reverse]

theorem sumDur_set (x : MEvent) :
    ∀ (l : List MEvent) (j : ℕ) (y : MEvent), l.get? j = some y →
      sumDur (l.set j x) = sumDur l - y.duration + x.duration := by
  intro l
  induction l with
  | nil => intro j y h; simp at h
  | cons a t ih =>
    intro j y h
    cases j with
    | zero =>
      simp at h
      subst h
      simp [sumDur_cons]
      ring
    | succ j' =>
      rw [List.get?_cons_succ] at h
      rw [show (a :: t).set (j' + 1) x = a :: t.set j' x from rfl, sumDur_cons, sumDur_cons,
        ih j' y h]
      ring

theorem takeWhileMemSub {α : Type} {p : α → Bool} :
    ∀ (l : List α), ∀ a ∈ l.takeWhile p, a ∈ l := by
  intro l
  induction l with
  | nil => intro a h; simp [List.takeWhile] at h
  | cons b t ih =>
    intro a h
    rw [List.takeWhile_cons] at h
    by_cases hb : p b = true
    · rw [if_pos hb] at h
      rcases List.mem_cons.mp h with rfl | h'
      · exact List.mem_cons_self a t
      · exact List.mem_cons_of_mem b (ih a h')
    · rw [if_neg hb] at h
      simp at h

theorem takeWhileAll {α : Type} {p : α → Bool} :
    ∀ (l : List α), (∀ a ∈ l, p a = true) → l.takeWhile p = l := by
  intro l
  induction l with
  | nil => intro _; rfl
  | cons b t ih =>
    intro h
    rw [List.takeWhile_cons, if_pos (h b (List.mem_cons_self b t))]
    rw [ih fun a ha => h a (List.mem_cons_of_mem b ha)]

theorem takeWhileImpMem {α : Type} {p q : α → Bool} (himp : ∀ a, q a = true → p a = true) :
    ∀ (l : List α), ∀ a ∈ l.takeWhile q, a ∈ l.takeWhile p := by
  intro l
  induction l with
  | nil => intro a h; simp [List.takeWhile] at h
  | cons b t ih =>
    intro a h
    rw [List.takeWhile_cons] at h
    by_cases hb : q b = true
    · rw [if_pos hb] at h
      rw [List.takeWhile_cons, if_pos (himp b hb)]
      rcases List.mem_cons.mp h with rfl | h'
      · exact List.mem_cons_self a _
      · exact List.mem_cons_of_mem b (ih a h')
    · rw [if_neg hb] at h
      simp at h

/-! ### Weight nonnegativity -/

theorem evalWeightAlg_nonneg (alg : WeightAlg) (c : MEvent) (pos n : ℕ)
    (hd : 0 ≤ c.duration) (hb : 0 ≤ c.beatStrength) : 0 ≤ evalWeightAlg alg c pos n := by
  have hcons : (0 : ℚ) ≤ consonanceFactor c := by
    unfold consonanceFactor
    split <;> norm_num
  have hqlbs : 0 ≤ quarterLengthBeatStrength c := mul_nonneg hd hb
  have hqlbsmp : 0 ≤ quarterLengthBeatStrengthMeasurePosition c pos n := by
    unfold quarterLengthBeatStrengthMeasurePosition
    split
    · exact hd
    · exact hqlbs
  cases alg with
  | quarterLengthOnly => exact hd
  | quarterLengthBeatStrength => exact hqlbs
  | quarterLengthBeatStrengthMeasurePosition => exact hqlbsmp
  | qlbsmpConsonance =>
    show 0 ≤ qlbsmpConsonance c pos n
    unfold qlbsmpConsonance
    split
    · exact mul_nonneg hd hcons
    · exact mul_nonneg hqlbsmp hcons

theorem addWeight_snd_nonneg {w : ℚ} (hw : 0 ≤ w) {k : PCKey} :
    ∀ (tbl : WeightTable), (∀ kv ∈ tbl, 0 ≤ kv.2) →
      ∀ kv ∈ addWeight tbl k w, 0 ≤ kv.2 := by
  intro tbl
  induction tbl with
  | nil =>
    intro _ kv hkv
    simp [addWeight] at hkv
    simp [hkv, hw]
  | cons kv0 rest ih =>
    intro ht kv hkv
    rw [addWeight] at hkv
    split at hkv
    · rcases List.mem_cons.mp hkv with rfl | h'
      · have := ht kv0 (List.mem_cons_self _ _)
        simpa using add_nonneg this hw
      · exact ht kv (List.mem_cons_of_mem _ h')
    · rcases List.mem_cons.mp hkv with rfl | h'
      · exact ht kv (List.mem_cons_self _ _)
      · exact ih (fun kv' hkv' => ht kv' (List.mem_cons_of_mem _ hkv')) kv h'

theorem cmwGo_snd_nonneg (alg : WeightAlg) (n : ℕ) :
    ∀ (evs : List MEvent) (i : ℕ) (tbl tbl' : WeightTable),
      (∀ e ∈ evs, 0 ≤ e.duration ∧ 0 ≤ e.beatStrength) →
      (∀ kv ∈ tbl, 0 ≤ kv.2) →
      cmwGo alg n i tbl evs = some tbl' → ∀ kv ∈ tbl', 0 ≤ kv.2 := by
  intro evs
  induction evs with
  | nil =>
    intro i tbl tbl' _ ht h
    simp [cmwGo] at h
    exact h ▸ ht
  | cons c rest ih =>
    intro i tbl tbl' hevs ht h
    rw [cmwGo] at h
    cases hk : pitchClassKey c with
    | none => rw [hk] at h; exact absurd h (by simp)
    | some p =>
      rw [hk] at h
      have hc := hevs c (List.mem_cons_self _ _)
      exact ih (i + 1) _ tbl'
        (fun e he => hevs e (List.mem_cons_of_mem _ he))
        (addWeight_snd_nonneg (evalWeightAlg_nonneg alg c i n hc.1 hc.2) tbl ht)
        h

theorem lookupW_nonneg {tbl : WeightTable} (ht : ∀ kv ∈ tbl, 0 ≤ kv.2) (k : PCKey) :
    0 ≤ lookupW tbl k := by
  induction tbl with
  | nil => simp [lookupW]
  | cons kv rest ih =>
    rw [lookupW]
    split
    · exact ht kv (List.mem_cons_self _ _)
    · exact ih fun kv' h => ht kv' (List.mem_cons_of_mem _ h)

/-! ### Weight-table keys are the keys of the events -/

theorem addWeight_keys_mem (k k' : PCKey) (w : ℚ) :
    ∀ (tbl : WeightTable),
      (k' ∈ (addWeight tbl k w).map Prod.fst ↔ k' ∈ tbl.map Prod.fst ∨ k' = k) := by
  intro tbl
  induction tbl with
  | nil => simp [addWeight]
  | cons kv rest ih =>
    rw [addWeight]
    split
    · rename_i heq
      subst heq
      simp only [List.map_cons, List.mem_cons]
      tauto
    · simp only [List.map_cons, List.mem_cons, ih]
      tauto

theorem cmwGo_keys (alg : WeightAlg) (n : ℕ) :
    ∀ (evs : List MEvent) (i : ℕ) (tbl tbl' : WeightTable),
      cmwGo alg n i tbl evs = some tbl' →
      ∀ k, k ∈ tbl'.map Prod.fst ↔
        k ∈ tbl.map Prod.fst ∨ ∃ e ∈ evs, pitchClassKey e = some k := by
  intro evs
  induction evs with
  | nil =>
    intro i tbl tbl' h k
    simp [cmwGo] at h
    subst h
    simp
  | cons c rest ih =>
    intro i tbl tbl' h k
    rw [cmwGo] at h
    cases hk : pitchClassKey c with
    | none => rw [hk] at h; exact absurd h (by simp)
    | some p =>
      rw [hk] at h
      rw [ih (i + 1) _ tbl' h k, addWeight_keys_mem]
      constructor
      · rintro ((hm | rfl) | ⟨e, he, hke⟩)
        · exact Or.inl hm
        · exact Or.inr ⟨c, List.mem_cons_self _ _, hk⟩
        · exact Or.inr ⟨e, List.mem_cons_of_mem _ he, hke⟩
      · rintro (hm | ⟨e, he, hke⟩)
        · exact Or.inl (Or.inl hm)
        · rcases List.mem_cons.mp he with rfl | he'
          · rw [hk] at hke
            exact Or.inl (Or.inr (Option.some.injEq _ _ ▸ hke).symm)
          · exact Or.inr ⟨e, he', hke⟩

/-! ### The descending sort is a permutation -/

theorem insertByWeightDesc_perm (kv : PCKey × ℚ) :
    ∀ (l : WeightTable), (insertByWeightDesc kv l).Perm (kv :: l) := by
  intro l
  induction l with
  | nil => simp [insertByWeightDesc]
  | cons kv' t ih =>
    rw [insertByWeightDesc]
    split
    · exact List.Perm.refl _
    · exact (List.Perm.cons kv' ih).trans (List.Perm.swap kv kv' t)

theorem sortByWeightDesc_perm :
    ∀ (tbl : WeightTable), (sortByWeightDesc tbl).Perm tbl := by
  intro tbl
  induction tbl with
  | nil => exact List.Perm.refl _
  | cons kv t ih =>
    exact (insertByWeightDesc_perm kv (sortByWeightDesc t)).trans (List.Perm.cons kv ih)

/-- The first-ranked candidate always survives the trim when the maximal
weight is nonnegative and `trimBelow ≤ 1`. -/
theorem headI_mem_trimmedOf (tbl : WeightTable) (trim : ℚ) (k0 : PCKey)
    (maxTail : List PCKey) (hw : 0 ≤ lookupW tbl k0) (ht : trim ≤ 1) :
    k0 ∈ trimmedOf tbl (k0 :: maxTail) trim := by
  unfold trimmedOf
  rw [List.takeWhile_cons]
  have hle : lookupW tbl (k0 :: maxTail).headI * trim ≤ lookupW tbl k0 := by
    simp only [List.headI]
    exact mul_le_of_le_one_right hw ht
  rw [if_pos (by simpa using hle)]
  exact List.mem_cons_self _ _

/-! ### Smoothing preserves length and total duration -/

theorem length_smoothAt (l : List MEvent) (i : ℕ) : (smoothAt l i).length = l.length := by
  unfold smoothAt
  rcases l.get? i with _ | c <;> rcases l.get? (i - 1) with _ | lastC <;> simp
  split <;> simp

theorem length_evenLoopFuel :
    ∀ (fuel : ℕ) (l : List MEvent) (i : ℕ), (evenLoopFuel fuel l i).length = l.length := by
  intro fuel
  induction fuel with
  | zero => intro l i; rfl
  | succ f ih =>
    intro l i
    rw [evenLoopFuel]
    split
    · rw [ih, length_smoothAt]
    · rfl

theorem length_evenChordLengths (l : List MEvent) : (evenChordLengths l).length = l.length :=
  length_evenLoopFuel _ _ _

theorem sumDur_smoothAt (l : List MEvent) (i : ℕ) (h1 : 1 ≤ i) :
    sumDur (smoothAt l i) = sumDur l := by
  unfold smoothAt
  cases hci : l.get? i with
  | none => rfl
  | some c =>
    cases hli : l.get? (i - 1) with
    | none => rfl
    | some lastC =>
      simp only []
      split
      · have hne : i - 1 ≠ i := by omega
        have hset1 : sumDur (l.set (i - 1) { lastC with duration := lastC.duration -
            (c.offset - ((truncQ c.offset : ℤ) : ℚ)) }) =
            sumDur l - lastC.duration + (lastC.duration -
              (c.offset - ((truncQ c.offset : ℤ) : ℚ))) :=
          sumDur_set _ l (i - 1) lastC hli
        have hget : (l.set (i - 1) { lastC with duration := lastC.duration -
            (c.offset - ((truncQ c.offset : ℤ) : ℚ)) }).get? i = some c := by
          rw [List.get?_set_ne _ _ hne]
          exact hci
        rw [sumDur_set _ _ i c hget, hset1]
        ring
      · rfl

theorem sumDur_evenLoopFuel :
    ∀ (fuel : ℕ) (l : List MEvent) (i : ℕ), 1 ≤ i →
      sumDur (evenLoopFuel fuel l i) = sumDur l := by
  intro fuel
  induction fuel with
  | zero => intro l i _; rfl
  | succ f ih =>
    intro l i hi
    rw [evenLoopFuel]
    split
    · rw [ih _ _ (by omega), sumDur_smoothAt _ _ hi]
    · rfl

theorem sumDur_evenChordLengths (l : List MEvent) : sumDur (evenChordLengths l) = sumDur l :=
  sumDur_evenLoopFuel _ _ _ (le_refl 1)

/-! ### The greedy pass conserves the spanned duration -/

theorem greedyGo_sumDur (kept : List PCKey) :
    ∀ (evs : List MEvent) (st : GreedyState) (q : ℚ) (out : List MEvent),
      contiguousFrom q evs →
      (st.current = none → st.currentPCs = none ∧ st.keptRev = [] ∧ st.newLength = q) →
      (st.current.isSome = true → sumDur st.keptRev + st.newLength = q) →
      (st.current.isSome = true ∨ ∃ e ∈ evs, ∃ k, pitchClassKey e = some k ∧ k ∈ kept) →
      greedyGo kept st evs = some out →
      sumDur out = q + sumDur evs := by
  intro evs
  induction evs with
  | nil =>
    intro st q out _ hnone hsome hnon h
    rw [greedyGo] at h
    cases hcur : st.current with
    | none =>
      rcases hnon with hs | ⟨e, he, _⟩
      · rw [hcur] at hs; simp at hs
      · simp at he
    | some cur =>
      have hsum := hsome (by rw [hcur]; rfl)
      rw [Option.some.injEq] at h
      subst h
      unfold closeFinal
      rw [hcur, sumDur_reverse, sumDur_cons]
      simp only [sumDur_nil, add_zero]
      linarith [hsum]
  | cons c rest ih =>
    intro st q out hcont hnone hsome hnon h
    obtain ⟨hoff, hcont'⟩ := hcont
    cases hk : pitchClassKey c with
    | none => rw [greedyGo, hk] at h; exact absurd h (by simp)
    | some p =>
      rw [greedyGo, hk] at h
      have h' : greedyGo kept (greedyStep kept st c p) rest = some out := h
      rw [sumDur_cons, ← add_assoc]
      refine ih (greedyStep kept st c p) (q + c.duration) out hcont' ?_ ?_ ?_ h'
      · -- the none-state invariant after one step
        intro hcc
        unfold greedyStep at hcc ⊢
        by_cases hcond : p ∈ kept ∧ st.currentPCs ≠ some p
        · rw [if_pos hcond] at hcc ⊢
          cases hcur : st.current with
          | none =>
            rw [hcur] at hcc
            by_cases hco : c.offset ≠ 0
            · rw [if_pos hco] at hcc; simp at hcc
            · rw [if_neg hco] at hcc; simp at hcc
          | some cur => rw [hcur] at hcc; simp at hcc
        · rw [if_neg hcond] at hcc ⊢
          obtain ⟨hpcs, hkr, hnl⟩ := hnone hcc
          exact ⟨hpcs, hkr, by show st.newLength + c.duration = q + c.duration; rw [hnl]⟩
      · -- the open-state sum invariant after one step
        intro hcc
        unfold greedyStep
        by_cases hcond : p ∈ kept ∧ st.currentPCs ≠ some p
        · rw [if_pos hcond]
          cases hcur : st.current with
          | none =>
            obtain ⟨hpcs, hkr, hnl⟩ := hnone hcur
            by_cases hco : c.offset ≠ 0
            · rw [if_pos hco]
              simp only [hkr, sumDur_nil, zero_add]
              rw [hoff]
            · rw [if_neg hco]
              simp only [hkr, sumDur_nil, zero_add]
              rw [hnl]
          | some cur =>
            have hsum := hsome (by rw [hcur]; rfl)
            simp only [sumDur_cons]
            linarith [hsum]
        · rw [if_neg hcond]
          simp only []
          have hcc' : st.current.isSome = true := by
            revert hcc
            unfold greedyStep
            rw [if_neg hcond]
            exact fun hx => hx
          have hsum := hsome hcc'
          linarith [hsum]
      · -- a kept event is still coming, or one is already open
        unfold greedyStep
        by_cases hcond : p ∈ kept ∧ st.currentPCs ≠ some p
        · rw [if_pos hcond]
          cases hcur : st.current with
          | none =>
            by_cases hco : c.offset ≠ 0
            · rw [if_pos hco]; exact Or.inl rfl
            · rw [if_neg hco]; exact Or.inl rfl
          | some cur => exact Or.inl rfl
        · rw [if_neg hcond]
          cases hcur : st.current with
          | some cur => exact Or.inl rfl
          | none =>
            obtain ⟨hpcs, _, _⟩ := hnone hcur
            have hnotkept : p ∉ kept := by
              intro hp
              exact hcond ⟨hp, by rw [hpcs]; simp⟩
            rcases hnon with hs | ⟨e, he, k, hke, hkk⟩
            · rw [hcur] at hs; simp at hs
            · rcases List.mem_cons.mp he with rfl | he'
              · rw [hk, Option.some.injEq] at hke
                exact absurd (hke ▸ hkk) hnotkept
              · exact Or.inr ⟨e, he', k, hke, hkk⟩

/-! ### Claim C1: duration conservation -/

theorem notesOf_eq_self {m : Measure} (h : pitchedOnly m) : notesOf m = m.events := by
  unfold notesOf
  refine List.filter_eq_self.mpr ?_
  intro e he
  have := h e he
  unfold isRestB
  cases hk : e.kind <;> simp_all

/-- C1 (counterexample): the claim fails on a well-formed measure containing a
rest.  `restGapMeasure` has positive durations, contiguous non-overlapping
events filling its 3-quarter bar, yet the reduction (which silently drops the
rest from `mObj = measureObj.flat.notes`) returns a single chord of duration
2, not 3. -/
theorem duration_conservation_counterexample :
    wfMeasure restGapMeasure ∧ restGapMeasure.fullDuration = 3 ∧
      reduceMeasureToNChords restGapMeasure 3 none (3 / 10) =
        some [{ offset := 0, duration := 2, kind := .chord, notes := [plainN 60],
                beatStrength := 1, isConsonant := true, tie := none }] ∧
      sumDur [{ offset := 0, duration := 2, kind := EvKind.chord, notes := [plainN 60],
                beatStrength := 1, isConsonant := true, tie := none }] ≠
        restGapMeasure.fullDuration := by
  refine ⟨?_, rfl, ?_, ?_⟩
  · constructor
    · norm_num [restGapMeasure, contiguousFrom]
    · constructor
      · norm_num [restGapMeasure, sumDur]
      · intro e he
        simp [restGapMeasure] at he
        rcases he with rfl | rfl | rfl <;> norm_num
  · norm_num [reduceMeasureToNChords, computeMeasureChordWeights, notesOf, restGapMeasure,
      cmwGo, pitchClassKey, pcSetKey, sortNat, insSorted, List.dedup, List.pwFilter, addWeight,
      evalWeightAlg, quarterLengthOnly, plainN, List.filter, isRestB,
      maxNChordsOf, clampNumChords, sortByWeightDesc, insertByWeightDesc, trimmedOf, lookupW,
      List.takeWhile, greedyGo, greedyStep, greedyInit, closeFinal, resetNotes, resetCNote,
      evenChordLengths, evenLoopFuel, smoothAt, pyRound, roundHalfEvenZ, truncQ,
      syncopMarkers, List.headI, List.set, optNoneEqSomeFalse, optSomeEqNoneFalse,
      Option.some.injEq, Option.map]
  · norm_num [sumDur, restGapMeasure, plainN]

/-- C1 (amended): for every well-formed measure all of whose events are
pitched (no rests) — positive durations, contiguous from offset 0, together
filling the nominal bar — and every `maxChords ≥ 1`, `trimBelow ∈ (0,1]` and
policy, whenever `reduceMeasureToNChords` returns, the sum of the returned
event durations equals the measure's nominal duration (exactly: durations are
rationals here, so the float tolerance is not needed).  With rests present the
property fails, since `mObj = measureObj.flat.notes` silently drops them. -/
theorem duration_conservation (m : Measure) (numChords : ℕ) (alg : Option WeightAlg)
    (trim : ℚ) (out : List MEvent) (hwf : wfMeasure m) (hpitched : pitchedOnly m)
    (_hnc : 1 ≤ numChords) (_ht0 : 0 < trim) (ht1 : trim ≤ 1)
    (hout : reduceMeasureToNChords m numChords alg trim = some out) :
    sumDur out = m.fullDuration := by
  obtain ⟨hcont, hfull, hpos⟩ := hwf
  have hself : notesOf m = m.events := notesOf_eq_self hpitched
  unfold reduceMeasureToNChords at hout
  cases hcmw : computeMeasureChordWeights (notesOf m) alg with
  | none => rw [hcmw] at hout; simp at hout
  | some tbl =>
    rw [hcmw] at hout
    have hout2 : (if (maxNChordsOf tbl numChords).length = 0 then
        some [restEvent m.fullDuration]
      else
        (greedyGo (trimmedOf tbl (maxNChordsOf tbl numChords) trim) greedyInit
          (notesOf m)).map evenChordLengths) = some out := hout
    by_cases hlen : (maxNChordsOf tbl numChords).length = 0
    · rw [if_pos hlen, Option.some.injEq] at hout2
      subst hout2
      rw [sumDur_cons]
      simp [restEvent, sumDur_nil]
    · rw [if_neg hlen, Option.map_eq_some'] at hout2
      obtain ⟨g, hg, hout'⟩ := hout2
      have hevs : ∀ e ∈ notesOf m, 0 ≤ e.duration ∧ 0 ≤ e.beatStrength := by
        intro e he
        rw [hself] at he
        exact ⟨le_of_lt (hpos e he).1, (hpos e he).2⟩
      have htblnn : ∀ kv ∈ tbl, 0 ≤ kv.2 :=
        cmwGo_snd_nonneg (alg.getD .quarterLengthOnly) (notesOf m).length (notesOf m)
          0 [] tbl hevs (by simp) hcmw
      cases hmax : maxNChordsOf tbl numChords with
      | nil => rw [hmax] at hlen; simp at hlen
      | cons k0 tail =>
        rw [hmax] at hg
        have hw0 : 0 ≤ lookupW tbl k0 := lookupW_nonneg htblnn k0
        have hk0trim : k0 ∈ trimmedOf tbl (k0 :: tail) trim :=
          headI_mem_trimmedOf tbl trim k0 tail hw0 ht1
        have hk0tbl : k0 ∈ tbl.map Prod.fst := by
          have h1 : k0 ∈ maxNChordsOf tbl numChords := by
            rw [hmax]; exact List.mem_cons_self _ _
          unfold maxNChordsOf at h1
          have h2 := List.take_subset _ _ h1
          exact ((sortByWeightDesc_perm tbl).map Prod.fst).mem_iff.mp h2
        have hex : ∃ e ∈ notesOf m, pitchClassKey e = some k0 := by
          have := (cmwGo_keys (alg.getD .quarterLengthOnly) (notesOf m).length (notesOf m)
            0 [] tbl hcmw k0).mp hk0tbl
          rcases this with h | h
          · simp at h
          · exact h
        obtain ⟨e0, he0, hke0⟩ := hex
        have hsum := greedyGo_sumDur (trimmedOf tbl (k0 :: tail) trim) (notesOf m)
          greedyInit 0 g (by rw [hself]; exact hcont)
          (fun _ => ⟨rfl, rfl, rfl⟩)
          (by intro hx; simp [greedyInit] at hx)
          (Or.inr ⟨e0, he0, k0, hke0, hk0trim⟩)
          hg
        rw [← hout', sumDur_evenChordLengths, hsum, hself, zero_add]
        exact hfull.symm

theorem duration_conservation_witness :
    sumDur [{ offset := 0, duration := 4, kind := .chord,
              notes := [plainN 60, plainN 64, plainN 67, plainN 72],
              beatStrength := 1, isConsonant := true, tie := none }] =
      testMeasureStream1.fullDuration :=
  duration_conservation testMeasureStream1 3 (some .qlbsmpConsonance) (3 / 10) _
    (by
      refine ⟨by norm_num [testMeasureStream1, contiguousFrom], ?_, ?_⟩
      · norm_num [testMeasureStream1, sumDur]
      · intro e he
        simp [testMeasureStream1] at he
        rcases he with rfl | rfl | rfl <;> norm_num)
    (by
      intro e he
      simp [testMeasureStream1] at he
      rcases he with rfl | rfl | rfl <;> simp)
    (by norm_num) (by norm_num) (by norm_num)
    (by norm_num [reduceMeasureToNChords, computeMeasureChordWeights, notesOf,
      testMeasureStream1, cmwGo, pitchClassKey, pcSetKey, sortNat, insSorted, List.dedup,
      List.pwFilter, addWeight, evalWeightAlg, qlbsmpConsonance, consonanceFactor,
      quarterLengthBeatStrengthMeasurePosition, quarterLengthBeatStrength, plainN,
      List.filter, isRestB, maxNChordsOf, clampNumChords, sortByWeightDesc,
      insertByWeightDesc, trimmedOf, lookupW, List.takeWhile, greedyGo, greedyStep,
      greedyInit, closeFinal, resetNotes, resetCNote, evenChordLengths, evenLoopFuel,
      smoothAt, pyRound, roundHalfEvenZ, truncQ, syncopMarkers, List.headI, List.set,
      optNoneEqSomeFalse, optSomeEqNoneFalse, Option.some.injEq, Option.map])

/-! ### Claim C5: trim monotonicity -/

theorem length_closeFinal (st : GreedyState) : (closeFinal st).length = stLen st := by
  unfold closeFinal stLen
  cases hcur : st.current <;> simp [hcur]

theorem greedyStep_keep {kept : List PCKey} {st : GreedyState} {c : MEvent} {p : PCKey}
    (hcond : p ∈ kept ∧ st.currentPCs ≠ some p) :
    stLen (greedyStep kept st c p) = stLen st + 1 ∧
      (greedyStep kept st c p).currentPCs = some p := by
  unfold greedyStep stLen
  rw [if_pos hcond]
  cases hcur : st.current with
  | none =>
    by_cases hco : c.offset ≠ 0
    · rw [if_pos hco]; simp
    · rw [if_neg hco]; simp
  | some cur => simp

theorem greedyStep_discard {kept : List PCKey} {st : GreedyState} {c : MEvent} {p : PCKey}
    (hcond : ¬(p ∈ kept ∧ st.currentPCs ≠ some p)) :
    stLen (greedyStep kept st c p) = stLen st ∧
      (greedyStep kept st c p).currentPCs = st.currentPCs := by
  unfold greedyStep stLen
  rw [if_neg hcond]
  exact ⟨rfl, rfl⟩

/-- Simulation: running the greedy pass with a smaller kept set never yields
more output events. -/
theorem greedyGo_sim (kept1 kept2 : List PCKey) (hsub : ∀ k ∈ kept2, k ∈ kept1) :
    ∀ (evs : List MEvent) (st1 st2 : GreedyState) (o1 o2 : List MEvent),
      curOK kept2 st2 →
      stLen st2 + (if st1.currentPCs = st2.currentPCs then 0 else 1) ≤ stLen st1 →
      greedyGo kept1 st1 evs = some o1 →
      greedyGo kept2 st2 evs = some o2 →
      o2.length ≤ o1.length := by
  intro evs
  induction evs with
  | nil =>
    intro st1 st2 o1 o2 _ hlen h1 h2
    rw [greedyGo, Option.some.injEq] at h1 h2
    subst h1
    subst h2
    rw [length_closeFinal, length_closeFinal]
    split at hlen <;> omega
  | cons c rest ih =>
    intro st1 st2 o1 o2 hok hlen h1 h2
    cases hk : pitchClassKey c with
    | none => rw [greedyGo, hk] at h1; exact absurd h1 (by simp)
    | some p =>
      rw [greedyGo, hk] at h1 h2
      have h1' : greedyGo kept1 (greedyStep kept1 st1 c p) rest = some o1 := h1
      have h2' : greedyGo kept2 (greedyStep kept2 st2 c p) rest = some o2 := h2
      by_cases hc1 : p ∈ kept1 ∧ st1.currentPCs ≠ some p
      · by_cases hc2 : p ∈ kept2 ∧ st2.currentPCs ≠ some p
        · -- both runs keep the event
          obtain ⟨hl1, hp1⟩ := greedyStep_keep hc1
          obtain ⟨hl2, hp2⟩ := greedyStep_keep hc2
          refine ih _ _ o1 o2 (Or.inr ⟨p, hc2.1, hp2⟩) ?_ h1' h2'
          rw [hl1, hl2, hp1, hp2, if_pos rfl]
          split at hlen <;> omega
        · -- only the first run keeps the event
          obtain ⟨hl1, hp1⟩ := greedyStep_keep hc1
          obtain ⟨hl2, hp2⟩ := greedyStep_discard hc2
          refine ih _ _ o1 o2 ?_ ?_ h1' h2'
          · rcases hok with hnone | ⟨k, hkk, hsomek⟩
            · exact Or.inl (hp2.trans hnone)
            · exact Or.inr ⟨k, hkk, hp2.trans hsomek⟩
          · rw [hl1, hl2, hp1, hp2]
            split <;> split at hlen <;> omega
      · by_cases hc2 : p ∈ kept2 ∧ st2.currentPCs ≠ some p
        · -- only the second run keeps the event; the first has it already open
          have hpcs1 : st1.currentPCs = some p := by
            by_contra hne
            exact hc1 ⟨hsub p hc2.1, hne⟩
          have hd : st1.currentPCs ≠ st2.currentPCs := by
            rw [hpcs1]
            intro heq
            exact hc2.2 heq.symm
          rw [if_neg hd] at hlen
          obtain ⟨hl1, hp1⟩ := greedyStep_discard hc1
          obtain ⟨hl2, hp2⟩ := greedyStep_keep hc2
          refine ih _ _ o1 o2 (Or.inr ⟨p, hc2.1, hp2⟩) ?_ h1' h2'
          rw [hl1, hl2, hp1, hp2, hpcs1, if_pos rfl]
          omega
        · -- both runs discard the event
          obtain ⟨hl1, hp1⟩ := greedyStep_discard hc1
          obtain ⟨hl2, hp2⟩ := greedyStep_discard hc2
          refine ih _ _ o1 o2 ?_ ?_ h1' h2'
          · rcases hok with hnone | ⟨k, hkk, hsomek⟩
            · exact Or.inl (hp2.trans hnone)
            · exact Or.inr ⟨k, hkk, hp2.trans hsomek⟩
          · rw [hl1, hl2, hp1, hp2]
            exact hlen

theorem trimmedOf_antitone (tbl : WeightTable) (maxN : List PCKey) (t1 t2 : ℚ)
    (h12 : t1 ≤ t2) (hw : 0 ≤ lookupW tbl maxN.headI) :
    ∀ k ∈ trimmedOf tbl maxN t2, k ∈ trimmedOf tbl maxN t1 := by
  unfold trimmedOf
  apply takeWhileImpMem
  intro a ha
  rw [decide_eq_true_eq] at ha ⊢
  calc lookupW tbl maxN.headI * t1 ≤ lookupW tbl maxN.headI * t2 :=
        mul_le_mul_of_nonneg_left h12 hw
    _ ≤ lookupW tbl a := ha

/-- C5 (confirmed): for a fixed measure, `maxChords` and policy, raising
`trimBelow` never increases the number of events in the returned reduction. -/
theorem trim_monotonicity (m : Measure) (numChords : ℕ) (alg : Option WeightAlg)
    (t1 t2 : ℚ) (o1 o2 : List MEvent) (hwf : wfMeasure m)
    (_h01 : 0 < t1) (h12 : t1 ≤ t2) (_h21 : t2 ≤ 1)
    (ho1 : reduceMeasureToNChords m numChords alg t1 = some o1)
    (ho2 : reduceMeasureToNChords m numChords alg t2 = some o2) :
    o2.length ≤ o1.length := by
  obtain ⟨_, _, hpos⟩ := hwf
  unfold reduceMeasureToNChords at ho1 ho2
  cases hcmw : computeMeasureChordWeights (notesOf m) alg with
  | none => rw [hcmw] at ho1; simp at ho1
  | some tbl =>
    rw [hcmw] at ho1 ho2
    have ho1' : (if (maxNChordsOf tbl numChords).length = 0 then
        some [restEvent m.fullDuration]
      else
        (greedyGo (trimmedOf tbl (maxNChordsOf tbl numChords) t1) greedyInit
          (notesOf m)).map evenChordLengths) = some o1 := ho1
    have ho2' : (if (maxNChordsOf tbl numChords).length = 0 then
        some [restEvent m.fullDuration]
      else
        (greedyGo (trimmedOf tbl (maxNChordsOf tbl numChords) t2) greedyInit
          (notesOf m)).map evenChordLengths) = some o2 := ho2
    by_cases hlen : (maxNChordsOf tbl numChords).length = 0
    · rw [if_pos hlen, Option.some.injEq] at ho1' ho2'
      rw [← ho1', ← ho2']
    · rw [if_neg hlen, Option.map_eq_some'] at ho1' ho2'
      obtain ⟨g1, hg1, hog1⟩ := ho1'
      obtain ⟨g2, hg2, hog2⟩ := ho2'
      have hevs : ∀ e ∈ notesOf m, 0 ≤ e.duration ∧ 0 ≤ e.beatStrength := by
        intro e he
        unfold notesOf at he
        have := hpos e (List.mem_filter.mp he).1
        exact ⟨le_of_lt this.1, this.2⟩
      have htblnn : ∀ kv ∈ tbl, 0 ≤ kv.2 :=
        cmwGo_snd_nonneg (alg.getD .quarterLengthOnly) (notesOf m).length (notesOf m)
          0 [] tbl hevs (by simp) hcmw
      have hw0 : 0 ≤ lookupW tbl (maxNChordsOf tbl numChords).headI :=
        lookupW_nonneg htblnn _
      rw [← hog1, ← hog2, length_evenChordLengths, length_evenChordLengths]
      exact greedyGo_sim _ _ (trimmedOf_antitone tbl _ t1 t2 h12 hw0) (notesOf m)
        greedyInit greedyInit g1 g2 (Or.inl rfl) (by simp [stLen, greedyInit]) hg1 hg2

theorem trim_monotonicity_witness :
    ([ { offset := 0, duration := 4, kind := .chord, notes := [plainN 60],
         beatStrength := 1, isConsonant := true, tie := none } ] : List MEvent).length ≤
      ([ { offset := 0, duration := 3 / 2, kind := .chord, notes := [plainN 60],
           beatStrength := 1, isConsonant := true, tie := none },
         { offset := 3 / 2, duration := 1, kind := .chord, notes := [plainN 64],
           beatStrength := 1 / 2, isConsonant := true, tie := none },
         { offset := 5 / 2, duration := 1, kind := .chord, notes := [plainN 60],
           beatStrength := 1 / 2, isConsonant := true, tie := none },
         { offset := 7 / 2, duration := 1 / 2, kind := .chord, notes := [plainN 64],
           beatStrength := 1 / 4, isConsonant := true, tie := none } ] : List MEvent).length :=
  trim_monotonicity alternatingMeasure 2 none (1 / 4) (7 / 10) _ _
    (by
      refine ⟨by norm_num [alternatingMeasure, contiguousFrom], ?_, ?_⟩
      · norm_num [alternatingMeasure, sumDur]
      · intro e he
        simp [alternatingMeasure] at he
        rcases he with rfl | rfl | rfl | rfl <;> norm_num)
    (by norm_num) (by norm_num) (by norm_num)
    (by norm_num [reduceMeasureToNChords, computeMeasureChordWeights, notesOf,
      alternatingMeasure, cmwGo, pitchClassKey, pcSetKey, sortNat, insSorted, List.dedup,
      List.pwFilter, addWeight, evalWeightAlg, quarterLengthOnly, plainN,
      List.filter, isRestB, maxNChordsOf, clampNumChords, sortByWeightDesc,
      insertByWeightDesc, trimmedOf, lookupW, List.takeWhile, greedyGo, greedyStep,
      greedyInit, closeFinal, resetNotes, resetCNote, evenChordLengths, evenLoopFuel,
      smoothAt, pyRound, roundHalfEvenZ, truncQ, syncopMarkers, List.headI, List.set,
      optNoneEqSomeFalse, optSomeEqNoneFalse, Option.some.injEq, Option.map])
    (by norm_num [reduceMeasureToNChords, computeMeasureChordWeights, notesOf,
      alternatingMeasure, cmwGo, pitchClassKey, pcSetKey, sortNat, insSorted, List.dedup,
      List.pwFilter, addWeight, evalWeightAlg, quarterLengthOnly, plainN,
      List.filter, isRestB, maxNChordsOf, clampNumChords, sortByWeightDesc,
      insertByWeightDesc, trimmedOf, lookupW, List.takeWhile, greedyGo, greedyStep,
      greedyInit, closeFinal, resetNotes, resetCNote, evenChordLengths, evenLoopFuel,
      smoothAt, pyRound, roundHalfEvenZ, truncQ, syncopMarkers, List.headI, List.set,
      optNoneEqSomeFalse, optSomeEqNoneFalse, Option.some.injEq, Option.map])

/-! ### Claim C2: the chord cap -/

theorem pitchClassKey_offset (c : MEvent) (o : ℚ) :
    pitchClassKey { c with offset := o } = pitchClassKey c := by
  obtain ⟨co, cd, ck, cn, cb, cc, ct⟩ := c
  rfl

theorem pitchClassKey_duration (c : MEvent) (d : ℚ) :
    pitchClassKey { c with duration := d } = pitchClassKey c := by
  obtain ⟨co, cd, ck, cn, cb, cc, ct⟩ := c
  rfl

theorem pitchClassKey_offset_duration (c : MEvent) (o d : ℚ) :
    pitchClassKey { c with offset := o, duration := d } = pitchClassKey c := by
  obtain ⟨co, cd, ck, cn, cb, cc, ct⟩ := c
  rfl

theorem resetCNote_pitch (n : CNote) : (resetCNote n).pitch = n.pitch := rfl

theorem pitchClassKey_resetNotes (c : MEvent) :
    pitchClassKey (resetNotes c) = pitchClassKey c := by
  obtain ⟨co, cd, ck, cn, cb, cc, ct⟩ := c
  unfold resetNotes pitchClassKey
  cases ck <;> simp [pcSetKey, List.map_map, Function.comp_def, resetCNote_pitch]

theorem addWeight_keys_nodup {k : PCKey} {w : ℚ} :
    ∀ {tbl : WeightTable}, (tbl.map Prod.fst).Nodup →
      ((addWeight tbl k w).map Prod.fst).Nodup := by
  intro tbl
  induction tbl with
  | nil => intro _; simp [addWeight]
  | cons kv rest ih =>
    intro h
    rw [addWeight]
    rw [List.map_cons, List.nodup_cons] at h
    split
    · rw [List.map_cons, List.nodup_cons]
      exact h
    · rename_i hne
      rw [List.map_cons, List.nodup_cons]
      constructor
      · intro hmem
        rcases (addWeight_keys_mem k kv.1 w rest).mp hmem with hmem' | rfl
        · exact h.1 hmem'
        · exact hne rfl
      · exact ih h.2

theorem cmwGo_keys_nodup (alg : WeightAlg) (n : ℕ) :
    ∀ (evs : List MEvent) (i : ℕ) (tbl tbl' : WeightTable),
      (tbl.map Prod.fst).Nodup →
      cmwGo alg n i tbl evs = some tbl' → (tbl'.map Prod.fst).Nodup := by
  intro evs
  induction evs with
  | nil =>
    intro i tbl tbl' h heq
    simp [cmwGo] at heq
    exact heq ▸ h
  | cons c rest ih =>
    intro i tbl tbl' h heq
    rw [cmwGo] at heq
    cases hk : pitchClassKey c with
    | none => rw [hk] at heq; exact absurd heq (by simp)
    | some p =>
      rw [hk] at heq
      exact ih (i + 1) _ tbl' (addWeight_keys_nodup h) heq

theorem distinctKeyCount_eq_card (l : List MEvent) :
    distinctKeyCount l = ((l.filterMap pitchClassKey).toFinset).card :=
  (List.card_toFinset _).symm

theorem filterMapKey_set (x : MEvent) :
    ∀ (l : List MEvent) (j : ℕ) (y : MEvent), l.get? j = some y →
      pitchClassKey x = pitchClassKey y →
      (l.set j x).filterMap pitchClassKey = l.filterMap pitchClassKey := by
  intro l
  induction l with
  | nil => intro j y h; simp at h
  | cons a t ih =>
    intro j y h hxy
    cases j with
    | zero =>
      simp at h
      subst h
      rw [show (a :: t).set 0 x = x :: t from rfl]
      rw [List.filterMap_cons, List.filterMap_cons, hxy]
    | succ j' =>
      rw [List.get?_cons_succ] at h
      rw [show (a :: t).set (j' + 1) x = a :: t.set j' x from rfl]
      rw [List.filterMap_cons, List.filterMap_cons, ih j' y h hxy]

theorem filterMapKey_smoothAt (l : List MEvent) (i : ℕ) (h1 : 1 ≤ i) :
    (smoothAt l i).filterMap pitchClassKey = l.filterMap pitchClassKey := by
  unfold smoothAt
  cases hci : l.get? i with
  | none => rfl
  | some c =>
    cases hli : l.get? (i - 1) with
    | none => rfl
    | some lastC =>
      simp only []
      split
      · have hne : i - 1 ≠ i := by omega
        have hget : (l.set (i - 1) { lastC with duration := lastC.duration -
            (c.offset - ((truncQ c.offset : ℤ) : ℚ)) }).get? i = some c := by
          rw [List.get?_set_ne _ _ hne]
          exact hci
        rw [filterMapKey_set _ _ i c hget (pitchClassKey_offset_duration c _ _),
          filterMapKey_set _ _ (i - 1) lastC hli (pitchClassKey_duration lastC _)]
      · rfl

theorem filterMapKey_evenLoopFuel :
    ∀ (fuel : ℕ) (l : List MEvent) (i : ℕ), 1 ≤ i →
      (evenLoopFuel fuel l i).filterMap pitchClassKey = l.filterMap pitchClassKey := by
  intro fuel
  induction fuel with
  | zero => intro l i _; rfl
  | succ f ih =>
    intro l i hi
    rw [evenLoopFuel]
    split
    · rw [ih _ _ (by omega), filterMapKey_smoothAt _ _ hi]
    · rfl

theorem filterMapKey_evenChordLengths (l : List MEvent) :
    (evenChordLengths l).filterMap pitchClassKey = l.filterMap pitchClassKey :=
  filterMapKey_evenLoopFuel _ _ _ (le_refl 1)

/-- The set of distinct keys of the greedy output is the kept keys that occur
among the events, together with the keys already recorded in the state. -/
theorem greedyGo_keySet (kept : List PCKey) :
    ∀ (evs : List MEvent) (st : GreedyState) (out : List MEvent),
      curInv st →
      greedyGo kept st evs = some out →
      (out.filterMap pitchClassKey).toFinset =
        stKeys st ∪ (kept.toFinset ∩ (evs.filterMap pitchClassKey).toFinset) := by
  intro evs
  induction evs with
  | nil =>
    intro st out hinv h
    rw [greedyGo, Option.some.injEq] at h
    subst h
    unfold closeFinal stKeys
    rcases hinv with ⟨hcur, hpcs⟩ | ⟨cur, k, hcur, hpcs, hkey⟩
    · rw [hcur, hpcs]
      ext x
      simp [optKeySet, List.mem_reverse]
    · rw [hcur, hpcs]
      ext x
      simp only [List.filterMap_nil, List.toFinset_nil, Finset.inter_empty,
        Finset.union_empty, optKeySet, Finset.mem_union, Finset.mem_singleton,
        List.mem_toFinset, List.mem_filterMap, List.mem_reverse, List.mem_cons]
      constructor
      · rintro ⟨e, (rfl | he), hke⟩
        · rw [pitchClassKey_duration, hkey, Option.some.injEq] at hke
          exact Or.inr hke.symm
        · exact Or.inl ⟨e, he, hke⟩
      · rintro (⟨e, he, hke⟩ | rfl)
        · exact ⟨e, Or.inr he, hke⟩
        · exact ⟨{ cur with duration := st.newLength }, Or.inl rfl, by
            rw [pitchClassKey_duration, hkey]⟩
  | cons c rest ih =>
    intro st out hinv h
    cases hk : pitchClassKey c with
    | none => rw [greedyGo, hk] at h; exact absurd h (by simp)
    | some p =>
      rw [greedyGo, hk] at h
      have h' : greedyGo kept (greedyStep kept st c p) rest = some out := h
      have hinv' : curInv (greedyStep kept st c p) := by
        unfold greedyStep
        by_cases hcond : p ∈ kept ∧ st.currentPCs ≠ some p
        · rw [if_pos hcond]
          cases hcur : st.current with
          | none =>
            by_cases hco : c.offset ≠ 0
            · rw [if_pos hco]
              exact Or.inr ⟨_, p, rfl, rfl, by
                rw [pitchClassKey_resetNotes, pitchClassKey_offset]
                exact hk⟩
            · rw [if_neg hco]
              exact Or.inr ⟨_, p, rfl, rfl, by rw [pitchClassKey_resetNotes]; exact hk⟩
          | some cur =>
            exact Or.inr ⟨_, p, rfl, rfl, by rw [pitchClassKey_resetNotes]; exact hk⟩
        · rw [if_neg hcond]
          rcases hinv with ⟨hcur, hpcs⟩ | ⟨cur, k, hcur, hpcs, hkey⟩
          · exact Or.inl ⟨hcur, hpcs⟩
          · exact Or.inr ⟨cur, k, hcur, hpcs, hkey⟩
      have hstep : stKeys (greedyStep kept st c p) =
          stKeys st ∪ (kept.toFinset ∩ {p}) := by
        unfold greedyStep stKeys
        by_cases hcond : p ∈ kept ∧ st.currentPCs ≠ some p
        · rw [if_pos hcond]
          have hpk : kept.toFinset ∩ ({p} : Finset PCKey) = {p} := by
            rw [Finset.inter_comm]
            exact Finset.singleton_inter_of_mem (List.mem_toFinset.mpr hcond.1)
          rw [hpk]
          cases hcur : st.current with
          | none =>
            rcases hinv with ⟨_, hpcs⟩ | ⟨cur, k, hcur', _, _⟩
            · rw [hpcs]
              by_cases hco : c.offset ≠ 0
              · rw [if_pos hco]
                ext x
                simp [optKeySet]
              · rw [if_neg hco]
                ext x
                simp [optKeySet]
            · rw [hcur] at hcur'; exact absurd hcur' (by simp)
          | some cur =>
            rcases hinv with ⟨hcur', _⟩ | ⟨cur', k, hcur', hpcs, hkey⟩
            · rw [hcur] at hcur'; exact absurd hcur' (by simp)
            · rw [hcur] at hcur'
              injection hcur' with hcur''
              subst hcur''
              rw [hpcs]
              ext x
              simp only [List.filterMap_cons]
              rw [pitchClassKey_duration, hkey]
              simp only [List.mem_toFinset, List.mem_cons, optKeySet, Finset.mem_union,
                Finset.mem_singleton, List.mem_filterMap]
              constructor
              · rintro (h1 | h2)
                · rcases h1 with rfl | ⟨e, he, hke⟩
                  · exact Or.inl (Or.inr rfl)
                  · exact Or.inl (Or.inl ⟨e, he, hke⟩)
                · exact Or.inr h2
              · rintro ((⟨e, he, hke⟩ | rfl) | h2)
                · exact Or.inl (Or.inr ⟨e, he, hke⟩)
                · exact Or.inl (Or.inl rfl)
                · exact Or.inr h2
        · rw [if_neg hcond]
          simp only []
          by_cases hp : p ∈ kept
          · have hpcs : st.currentPCs = some p := by
              by_contra hne
              exact hcond ⟨hp, hne⟩
            rw [hpcs]
            have hpk : kept.toFinset ∩ ({p} : Finset PCKey) = {p} := by
              rw [Finset.inter_comm]
              exact Finset.singleton_inter_of_mem (List.mem_toFinset.mpr hp)
            rw [hpk]
            ext x
            simp [optKeySet]
          · have hpk : kept.toFinset ∩ ({p} : Finset PCKey) = ∅ := by
              rw [Finset.inter_comm]
              exact Finset.singleton_inter_of_not_mem fun hx => hp (List.mem_toFinset.mp hx)
            rw [hpk, Finset.union_empty]
      rw [ih _ out hinv' h', hstep]
      rw [List.filterMap_cons, hk]
      ext x
      simp only [Finset.mem_union, Finset.mem_inter, Finset.mem_singleton,
        List.mem_toFinset, List.mem_cons]
      tauto

theorem clampNumChords_eq_min (nc len : ℕ) : clampNumChords nc len = min nc len := by
  unfold clampNumChords
  split <;> omega

theorem length_maxNChordsOf (tbl : WeightTable) (nc : ℕ) :
    (maxNChordsOf tbl nc).length = min nc tbl.length := by
  unfold maxNChordsOf
  rw [List.length_take, List.length_map, (sortByWeightDesc_perm tbl).length_eq,
    clampNumChords_eq_min]
  omega

theorem nodup_maxNChordsOf (tbl : WeightTable) (nc : ℕ)
    (h : (tbl.map Prod.fst).Nodup) : (maxNChordsOf tbl nc).Nodup := by
  have hsorted : ((sortByWeightDesc tbl).map Prod.fst).Nodup :=
    ((sortByWeightDesc_perm tbl).map Prod.fst).nodup_iff.mpr h
  exact hsorted.sublist (List.take_sublist _ _)

theorem maxNChordsOf_sub_keys (tbl : WeightTable) (nc : ℕ) :
    ∀ k ∈ maxNChordsOf tbl nc, k ∈ tbl.map Prod.fst := by
  intro k hk
  unfold maxNChordsOf at hk
  have h2 := List.take_subset _ _ hk
  exact ((sortByWeightDesc_perm tbl).map Prod.fst).mem_iff.mp h2

/-- C2 (amended): the number of *distinct* pitch-class-set keys among the
returned events is at most `maxChords`; and when the weight table is nonempty
and no ranked candidate scores below `maxScore * trimBelow`, that number
equals `min maxChords (number of distinct weighted groups)`.  (The raw event
count can exceed `maxChords`, since the greedy pass keeps one event per
*change* of kept sonority — see the counterexample.) -/
theorem chordCap_distinct (m : Measure) (numChords : ℕ) (alg : Option WeightAlg)
    (trim : ℚ) (out : List MEvent) (tbl : WeightTable)
    (hnc : 1 ≤ numChords)
    (hcmw : computeMeasureChordWeights (notesOf m) alg = some tbl)
    (hout : reduceMeasureToNChords m numChords alg trim = some out) :
    distinctKeyCount out ≤ numChords ∧
      (tbl ≠ [] →
        (∀ k ∈ maxNChordsOf tbl numChords,
          lookupW tbl (maxNChordsOf tbl numChords).headI * trim ≤ lookupW tbl k) →
        distinctKeyCount out = min numChords tbl.length) := by
  unfold reduceMeasureToNChords at hout
  rw [hcmw] at hout
  have hout2 : (if (maxNChordsOf tbl numChords).length = 0 then
      some [restEvent m.fullDuration]
    else
      (greedyGo (trimmedOf tbl (maxNChordsOf tbl numChords) trim) greedyInit
        (notesOf m)).map evenChordLengths) = some out := hout
  have hnodup : (tbl.map Prod.fst).Nodup :=
    cmwGo_keys_nodup (alg.getD .quarterLengthOnly) (notesOf m).length (notesOf m)
      0 [] tbl (by simp) hcmw
  by_cases hlen : (maxNChordsOf tbl numChords).length = 0
  · rw [if_pos hlen, Option.some.injEq] at hout2
    subst hout2
    have htbl0 : tbl.length = 0 := by
      rw [length_maxNChordsOf] at hlen
      omega
    constructor
    · have h1 : distinctKeyCount [restEvent m.fullDuration] = 1 := rfl
      omega
    · intro htne _
      exact absurd (List.length_eq_zero.mp htbl0) htne
  · rw [if_neg hlen, Option.map_eq_some'] at hout2
    obtain ⟨g, hg, hog⟩ := hout2
    have hkeys := greedyGo_keySet (trimmedOf tbl (maxNChordsOf tbl numChords) trim)
      (notesOf m) greedyInit g (Or.inl ⟨rfl, rfl⟩) hg
    have houtkeys : (out.filterMap pitchClassKey).toFinset =
        (trimmedOf tbl (maxNChordsOf tbl numChords) trim).toFinset ∩
          ((notesOf m).filterMap pitchClassKey).toFinset := by
      rw [← hog, filterMapKey_evenChordLengths, hkeys]
      simp [stKeys, greedyInit, optKeySet]
    rw [distinctKeyCount_eq_card, houtkeys]
    constructor
    · calc ((trimmedOf tbl (maxNChordsOf tbl numChords) trim).toFinset ∩
            ((notesOf m).filterMap pitchClassKey).toFinset).card
          ≤ (trimmedOf tbl (maxNChordsOf tbl numChords) trim).toFinset.card :=
            Finset.card_le_card Finset.inter_subset_left
        _ ≤ (trimmedOf tbl (maxNChordsOf tbl numChords) trim).length :=
            List.toFinset_card_le _
        _ ≤ (maxNChordsOf tbl numChords).length := (List.takeWhile_sublist _).length_le
        _ = min numChords tbl.length := length_maxNChordsOf tbl numChords
        _ ≤ numChords := min_le_left _ _
    · intro htne hpass
      have htrim_eq : trimmedOf tbl (maxNChordsOf tbl numChords) trim =
          maxNChordsOf tbl numChords :=
        takeWhileAll _ fun k hk => decide_eq_true (hpass k hk)
      rw [htrim_eq]
      have hsub2 : (maxNChordsOf tbl numChords).toFinset ⊆
          ((notesOf m).filterMap pitchClassKey).toFinset := by
        intro k hk
        have hmem := maxNChordsOf_sub_keys tbl numChords k (List.mem_toFinset.mp hk)
        rcases (cmwGo_keys (alg.getD .quarterLengthOnly) (notesOf m).length (notesOf m)
            0 [] tbl hcmw k).mp hmem with habs | ⟨e, he, hke⟩
        · simp at habs
        · exact List.mem_toFinset.mpr (List.mem_filterMap.mpr ⟨e, he, hke⟩)
      rw [Finset.inter_eq_left.mpr hsub2,
        List.toFinset_card_of_nodup (nodup_maxNChordsOf tbl numChords hnodup)]
      exact length_maxNChordsOf tbl numChords

/-- C2 (counterexample): on a measure alternating two kept sonorities
(C, E, C, E), with `maxChords = 2` and no candidate trimmed, the reduction
returns 4 events — more than `maxChords` — because the greedy pass keeps one
event per change of kept sonority. -/
theorem chordCap_counterexample :
    computeMeasureChordWeights (notesOf alternatingMeasure) none =
        some [([0], 5 / 2), ([4], 3 / 2)] ∧
      trimmedOf [([0], 5 / 2), ([4], 3 / 2)]
          (maxNChordsOf [([0], 5 / 2), ([4], 3 / 2)] 2) (1 / 4) =
        maxNChordsOf [([0], 5 / 2), ([4], 3 / 2)] 2 ∧
      reduceMeasureToNChords alternatingMeasure 2 none (1 / 4) =
        some [ { offset := 0, duration := 3 / 2, kind := .chord, notes := [plainN 60],
                 beatStrength := 1, isConsonant := true, tie := none },
               { offset := 3 / 2, duration := 1, kind := .chord, notes := [plainN 64],
                 beatStrength := 1 / 2, isConsonant := true, tie := none },
               { offset := 5 / 2, duration := 1, kind := .chord, notes := [plainN 60],
                 beatStrength := 1 / 2, isConsonant := true, tie := none },
               { offset := 7 / 2, duration := 1 / 2, kind := .chord, notes := [plainN 64],
                 beatStrength := 1 / 4, isConsonant := true, tie := none } ] ∧
      ([ { offset := (0 : ℚ), duration := 3 / 2, kind := EvKind.chord,
           notes := [plainN 60], beatStrength := 1, isConsonant := true, tie := none },
         { offset := 3 / 2, duration := 1, kind := .chord, notes := [plainN 64],
           beatStrength := 1 / 2, isConsonant := true, tie := none },
         { offset := 5 / 2, duration := 1, kind := .chord, notes := [plainN 60],
           beatStrength := 1 / 2, isConsonant := true, tie := none },
         { offset := 7 / 2, duration := 1 / 2, kind := .chord, notes := [plainN 64],
           beatStrength := 1 / 4, isConsonant := true, tie := none } ] : List MEvent).length =
          4 ∧
      ¬((4 : ℕ) ≤ 2) := by
  refine ⟨?_, ?_, ?_, rfl, by omega⟩
  · norm_num [computeMeasureChordWeights, notesOf, alternatingMeasure, cmwGo, pitchClassKey,
      pcSetKey, sortNat, insSorted, List.dedup, List.pwFilter, addWeight, evalWeightAlg,
      quarterLengthOnly, plainN, List.filter, isRestB]
  · norm_num [maxNChordsOf, clampNumChords, sortByWeightDesc, insertByWeightDesc,
      trimmedOf, lookupW, List.takeWhile, List.headI]
  · norm_num [reduceMeasureToNChords, computeMeasureChordWeights, notesOf,
      alternatingMeasure, cmwGo, pitchClassKey, pcSetKey, sortNat, insSorted, List.dedup,
      List.pwFilter, addWeight, evalWeightAlg, quarterLengthOnly, plainN,
      List.filter, isRestB, maxNChordsOf, clampNumChords, sortByWeightDesc,
      insertByWeightDesc, trimmedOf, lookupW, List.takeWhile, greedyGo, greedyStep,
      greedyInit, closeFinal, resetNotes, resetCNote, evenChordLengths, evenLoopFuel,
      smoothAt, pyRound, roundHalfEvenZ, truncQ, syncopMarkers, List.headI, List.set,
      optNoneEqSomeFalse, optSomeEqNoneFalse, Option.some.injEq, Option.map]

theorem chordCap_distinct_witness :
    distinctKeyCount
        [ { offset := 0, duration := 3 / 2, kind := .chord, notes := [plainN 60],
            beatStrength := 1, isConsonant := true, tie := none },
          { offset := 3 / 2, duration := 1, kind := .chord, notes := [plainN 64],
            beatStrength := 1 / 2, isConsonant := true, tie := none },
          { offset := 5 / 2, duration := 1, kind := .chord, notes := [plainN 60],
            beatStrength := 1 / 2, isConsonant := true, tie := none },
          { offset := 7 / 2, duration := 1 / 2, kind := .chord, notes := [plainN 64],
            beatStrength := 1 / 4, isConsonant := true, tie := none } ] =
      min 2 ([([0], 5 / 2), ([4], 3 / 2)] : WeightTable).length :=
  (chordCap_distinct alternatingMeasure 2 none (1 / 4) _ [([0], 5 / 2), ([4], 3 / 2)]
    (by norm_num)
    (by norm_num [computeMeasureChordWeights, notesOf, alternatingMeasure, cmwGo,
      pitchClassKey, pcSetKey, sortNat, insSorted, List.dedup, List.pwFilter, addWeight,
      evalWeightAlg, quarterLengthOnly, plainN, List.filter, isRestB])
    (by norm_num [reduceMeasureToNChords, computeMeasureChordWeights, notesOf,
      alternatingMeasure, cmwGo, pitchClassKey, pcSetKey, sortNat, insSorted, List.dedup,
      List.pwFilter, addWeight, evalWeightAlg, quarterLengthOnly, plainN,
      List.filter, isRestB, maxNChordsOf, clampNumChords, sortByWeightDesc,
      insertByWeightDesc, trimmedOf, lookupW, List.takeWhile, greedyGo, greedyStep,
      greedyInit, closeFinal, resetNotes, resetCNote, evenChordLengths, evenLoopFuel,
      smoothAt, pyRound, roundHalfEvenZ, truncQ, syncopMarkers, List.headI, List.set,
      optNoneEqSomeFalse, optSomeEqNoneFalse, Option.some.injEq, Option.map])).2
    (by simp)
    (by
      intro k hk
      have hmax : maxNChordsOf [([0], 5 / 2), ([4], 3 / 2)] 2 = [[0], [4]] := by
        norm_num [maxNChordsOf, clampNumChords, sortByWeightDesc, insertByWeightDesc]
      rw [hmax] at hk
      rw [hmax]
      simp at hk
      rcases hk with rfl | rfl <;> norm_num [lookupW, List.headI])
